import Mathlib

set_option maxHeartbeats 1000000
set_option maxRecDepth 4000

namespace AutoCoder

/-! Shallow embedding of the auto-coder core: the diagnosis engine
(`src/auto_coder/diagnosis.py`), the repair engine
(`src/auto_coder/repair.py`), the iteration controller
(`src/auto_coder/pipeline.py`, function `run_pipeline`) and the task
scheduler (`src/auto_coder/agent.py`, class `Agent`).

Python strings are embedded as Lean `String`; the few regular
expressions used by the source are implemented as explicit scanners on
`List Char` with the same leftmost-match semantics. -/

/-- Character class mirroring regex backslash-s and the whitespace set of
Python str.strip: space, tab, newline, carriage return, vertical tab, form feed. -/
def pyIsSpace (c : Char) : Bool :=
  c == ' ' || c == Char.ofNat 9 || c == Char.ofNat 10 || c == Char.ofNat 13 ||
    c == Char.ofNat 11 || c == Char.ofNat 12

/-- Character class mirroring regex backslash-w on the ASCII input the
program manipulates: letters, digits and the underscore. -/
def isWordChar (c : Char) : Bool := c.isAlphanum || c == '_'

/-- The single-quote character (codepoint 39). -/
def sqChar : Char := Char.ofNat 39

/-- The double-quote character (codepoint 34). -/
def dqChar : Char := Char.ofNat 34

/-- The single-quote character as a one-character string. -/
def sq : String := String.mk [sqChar]

/-- Rebuild a string from its character list. -/
def ofChars (l : List Char) : String := String.mk l

/-- Boolean list-prefix test. -/
def listIsPrefix : List Char → List Char → Bool
  | [], _ => true
  | _ :: _, [] => false
  | a :: as, b :: bs => a == b && listIsPrefix as bs

/-- Boolean substring test on character lists (Python `needle in hay`). -/
def containsSub (needle : List Char) : List Char → Bool
  | [] => listIsPrefix needle []
  | c :: rest => listIsPrefix needle (c :: rest) || containsSub needle rest

/-- Python `needle in hay` on strings. -/
def strContains (hay needle : String) : Bool := containsSub needle.data hay.data

/-- Python `s.startswith(pre)`. -/
def strStartsWith (s pre : String) : Bool := listIsPrefix pre.data s.data

/-- Python `s.endswith(suffix)`. -/
def strEndsWith (s suffix : String) : Bool :=
  listIsPrefix suffix.data.reverse s.data.reverse

/-- Python `s.rstrip()` on a character list. -/
def rstripChars (l : List Char) : List Char := (l.reverse.dropWhile pyIsSpace).reverse

/-- Python `s.strip()` on a character list. -/
def stripChars (l : List Char) : List Char := (rstripChars l).dropWhile pyIsSpace

/-- Python `s.strip()`. -/
def pyStrip (s : String) : String := ofChars (stripChars s.data)

/-- Python `s.rstrip()`. -/
def pyRstrip (s : String) : String := ofChars (rstripChars s.data)

/-- The leading-whitespace run of a line: regex `^(\s*)`. -/
def leadingIndent (line : String) : String := ofChars (line.data.takeWhile pyIsSpace)

/-- Whether a character list ends with the given character. -/
def endsWithChar (l : List Char) (c : Char) : Bool :=
  match l.getLast? with
  | some x => x == c
  | none => false

/-- Drop the final character (Python `s[:-1]`). -/
def dropLastChar (l : List Char) : List Char := l.take (l.length - 1)

/-- Numeric value of a digit run. -/
def parseDigits (l : List Char) : Nat := l.foldl (fun n c => n * 10 + (c.toNat - 48)) 0

/-- Python `s.split("\n")` on a character list, with `cur` accumulating
the current line in reverse. -/
def splitNlAux : List Char → List Char → List String
  | [], cur => [ofChars cur.reverse]
  | c :: rest, cur =>
    if c == Char.ofNat 10 then ofChars cur.reverse :: splitNlAux rest []
    else splitNlAux rest (c :: cur)

/-- Python `source.split("\n")`. -/
def splitNl (s : String) : List String := splitNlAux s.data []

/-- Python `"\n".join(lines)`. -/
def joinNl : List String → String
  | [] => ""
  | [x] => x
  | x :: y :: r => x ++ "\n" ++ joinNl (y :: r)

/-- Python `value or default` for optional strings: both `None` and the
empty string are falsy and give the default. -/
def orDefault (o : Option String) (d : String) : String :=
  match o with
  | none => d
  | some s => if s == "" then d else s

/-! ## Execution results (`execution.py`)

`execute_code` itself runs arbitrary Python through `exec`/`eval` and is
treated as a black box (a parameter of the iteration loop), exactly as the
spec declares the Sandbox an external capability.  Its result record is
embedded below.  The `namespace` field (a dict of arbitrary Python values)
and the dynamically typed `return_value` are not inspected by any embedded
code; `return_value` is carried as an opaque optional string. -/

/-- Embeds the dataclass `ExecutionResult` of `execution.py`. -/
structure ExecutionResult where
  success : Bool
  returnValue : Option String := none
  output : String := ""
  error : Option String := none
  errorType : Option String := none
  tracebackStr : Option String := none
deriving DecidableEq

/-! ## Diagnosis engine (`diagnosis.py`) -/

/-- Embeds the dataclass `Diagnosis` of `diagnosis.py`. -/
structure Diagnosis where
  errorCategory : String
  rootCause : String
  suggestion : String
  lineNumber : Option Nat := none
deriving DecidableEq

/-- Embeds `_extract_line_number`: the leftmost match of regex
`line (\d+)` in the traceback text, as a number. -/
def extract_line_number : List Char → Option Nat
  | [] => none
  | c :: rest =>
    if listIsPrefix ("line ".data) (c :: rest) then
      let ds := ((c :: rest).drop 5).takeWhile Char.isDigit
      if ds.isEmpty then extract_line_number rest else some (parseDigits ds)
    else extract_line_number rest

/-- Embeds `_categorize_error`: the fixed lookup table from Python
exception names to categories, defaulting to `"runtime"`. -/
def categorize_error (errorType : String) : String :=
  if errorType == "SyntaxError" then "syntax"
  else if errorType == "IndentationError" then "syntax"
  else if errorType == "TabError" then "syntax"
  else if errorType == "NameError" then "reference"
  else if errorType == "AttributeError" then "reference"
  else if errorType == "TypeError" then "type"
  else if errorType == "ValueError" then "value"
  else if errorType == "IndexError" then "index"
  else if errorType == "KeyError" then "key"
  else if errorType == "ZeroDivisionError" then "arithmetic"
  else if errorType == "RecursionError" then "recursion"
  else if errorType == "ImportError" then "import"
  else if errorType == "ModuleNotFoundError" then "import"
  else if errorType == "FileNotFoundError" then "io"
  else if errorType == "IOError" then "io"
  else if errorType == "PermissionError" then "io"
  else "runtime"

/-- The keys of the `_categorize_error` lookup table. -/
def categoryTableKeys : List String :=
  ["SyntaxError", "IndentationError", "TabError", "NameError", "AttributeError",
   "TypeError", "ValueError", "IndexError", "KeyError", "ZeroDivisionError",
   "RecursionError", "ImportError", "ModuleNotFoundError", "FileNotFoundError",
   "IOError", "PermissionError"]

/-- Scanner for the regex `name '(\w+)' is not defined`: the leftmost
occurrence of the literal prefix followed by a nonempty word run and the
literal suffix; returns the captured word. -/
def findNameNotDefined : List Char → Option String
  | [] => none
  | c :: rest =>
    let pre := "name ".data ++ [sqChar]
    let suf := [sqChar] ++ " is not defined".data
    if listIsPrefix pre (c :: rest) then
      let after := (c :: rest).drop pre.length
      let w := after.takeWhile isWordChar
      if w.isEmpty then findNameNotDefined rest
      else if listIsPrefix suf (after.drop w.length) then some (ofChars w)
      else findNameNotDefined rest
    else findNameNotDefined rest

/-- Embeds `_identify_root_cause`. -/
def identify_root_cause (errorType errorMsg : String) : String :=
  if errorType == "NameError" then
    match findNameNotDefined errorMsg.data with
    | some n => "Variable or function " ++ sq ++ n ++ sq ++ " is used but not defined"
    | none => errorType ++ ": " ++ errorMsg
  else if errorType == "TypeError" then
    if strContains errorMsg "argument" then
      "Function called with wrong number or type of arguments"
    else if strContains errorMsg "unsupported operand" then
      "Operation applied to incompatible types"
    else errorType ++ ": " ++ errorMsg
  else if errorType == "IndexError" then "List index is out of the valid range"
  else if errorType == "KeyError" then "Dictionary key does not exist"
  else if errorType == "ZeroDivisionError" then "Division by zero encountered"
  else if errorType == "SyntaxError" then "Syntax error in the code: " ++ errorMsg
  else if errorType == "RecursionError" then
    "Infinite recursion detected — missing or incorrect base case"
  else if errorType == "ValueError" then "Invalid value: " ++ errorMsg
  else errorType ++ ": " ++ errorMsg

/-- Embeds `_suggest_fix`. -/
def suggest_fix (errorType errorMsg : String) : String :=
  if errorType == "NameError" then
    match findNameNotDefined errorMsg.data with
    | some n => "Define " ++ sq ++ n ++ sq ++ " before using it, or check for typos"
    | none => "Review the error message and fix the code accordingly"
  else if errorType == "TypeError" then
    if strContains errorMsg "argument" then
      "Check function signature and ensure correct number of arguments"
    else "Ensure operand types are compatible"
  else if errorType == "IndexError" then
    "Add bounds checking before accessing list elements"
  else if errorType == "KeyError" then
    "Use dict.get() or check key existence before access"
  else if errorType == "ZeroDivisionError" then
    "Add a check for zero before performing division"
  else if errorType == "SyntaxError" then "Review the code syntax near the reported line"
  else if errorType == "RecursionError" then "Add or fix the base case for recursion"
  else "Review the error message and fix the code accordingly"

/-- Embeds `diagnose` of `diagnosis.py`: `None` exactly when the outcome
succeeded, otherwise a diagnosis assembled from the pure helpers above. -/
def diagnose (result : ExecutionResult) : Option Diagnosis :=
  if result.success then none
  else
    let errorType := orDefault result.errorType "Unknown"
    let errorMsg := orDefault result.error ""
    let tb := orDefault result.tracebackStr ""
    some { errorCategory := categorize_error errorType,
           rootCause := identify_root_cause errorType errorMsg,
           suggestion := suggest_fix errorType errorMsg,
           lineNumber := extract_line_number tb.data }

/-! ## Repair engine (`repair.py`)

`repair_code_with_cli` writes temporary files and runs an external
process; it is modeled as an oracle `cli : Option (String → Diagnosis → String)`
(the Python code guarantees it returns a string, falling back to the
original source on any failure).  The seven built-in handlers are embedded
in full. -/

/-- Scanner for regex `/\s*(\w+)` in `_repair_arithmetic`: the leftmost
slash followed by optional whitespace and a nonempty word run; returns
the word run (the divisor). -/
def findDivisor : List Char → Option String
  | [] => none
  | c :: rest =>
    if c == '/' then
      let w := (rest.dropWhile pyIsSpace).takeWhile isWordChar
      if w.isEmpty then findDivisor rest else some (ofChars w)
    else findDivisor rest

/-- One pass of `_repair_arithmetic` over the line list: before the first
line that contains a slash, is not a comment, and yields a divisor match,
insert a zero-divisor guard; the loop then breaks. -/
def repairArithLines : List String → List String
  | [] => []
  | line :: rest =>
    if strContains line "/" && !(strStartsWith (pyStrip line) "#") then
      match findDivisor line.data with
      | some divisor =>
        let indent := leadingIndent line
        let guard := indent ++ "if " ++ divisor ++ " == 0:\n" ++ indent ++ "    " ++
          divisor ++ " = 1  # avoid division by zero\n"
        guard :: line :: rest
      | none => line :: repairArithLines rest
    else line :: repairArithLines rest

/-- Embeds `_repair_arithmetic`. -/
def repairArithmetic (source : String) (_d : Diagnosis) : String :=
  joinNl (repairArithLines (splitNl source))

/-- Scanner for regex `(\w+)\[(\w+)\]` in `_repair_index`: the leftmost
position where a word run is immediately followed by an opening bracket, a
nonempty word run, and a closing bracket; returns (variable, index). -/
def findIndexPattern : List Char → Option (String × String)
  | [] => none
  | c :: rest =>
    (if isWordChar c then
      let w1 := (c :: rest).takeWhile isWordChar
      let afterW1 := (c :: rest).drop w1.length
      match afterW1 with
      | '[' :: r1 =>
        let w2 := r1.takeWhile isWordChar
        if w2.isEmpty then findIndexPattern rest
        else
          match r1.drop w2.length with
          | ']' :: _ => some (ofChars w1, ofChars w2)
          | _ => findIndexPattern rest
      | _ => findIndexPattern rest
    else findIndexPattern rest)

/-- One pass of `_repair_index` over the line list: the first matching
non-comment line gets a bounds-check guard prepended inside the same list
element; the loop then breaks. -/
def repairIndexLines : List String → List String
  | [] => []
  | line :: rest =>
    match findIndexPattern line.data with
    | some (varName, idxExpr) =>
      if strStartsWith (pyStrip line) "#" then line :: repairIndexLines rest
      else
        let indent := leadingIndent line
        let guard := indent ++ "if " ++ idxExpr ++ " < len(" ++ varName ++ "):\n"
        (guard ++ "    " ++ line) :: rest
    | none => line :: repairIndexLines rest

/-- Embeds `_repair_index`. -/
def repairIndex (source : String) (_d : Diagnosis) : String :=
  joinNl (repairIndexLines (splitNl source))

/-- Scanner for regex `(\w+)\[(['\x22][^'\x22]+['\x22])\]` in `_repair_key`:
a word run, an opening bracket, a quoted nonempty key (either quote style
on each side), and a closing bracket; returns (variable, quoted key). -/
def findKeyPattern : List Char → Option (String × String)
  | [] => none
  | c :: rest =>
    (if isWordChar c then
      let w1 := (c :: rest).takeWhile isWordChar
      let afterW1 := (c :: rest).drop w1.length
      match afterW1 with
      | '[' :: q1 :: r1 =>
        if q1 == sqChar || q1 == dqChar then
          let content := r1.takeWhile (fun x => !(x == sqChar) && !(x == dqChar))
          if content.isEmpty then findKeyPattern rest
          else
            match r1.drop content.length with
            | q2 :: ']' :: _ =>
              if q2 == sqChar || q2 == dqChar then
                some (ofChars w1, ofChars ([q1] ++ content ++ [q2]))
              else findKeyPattern rest
            | _ => findKeyPattern rest
        else findKeyPattern rest
      | _ => findKeyPattern rest
    else findKeyPattern rest)

/-- Python `s.replace(old, new)`: replace every non-overlapping occurrence,
scanning left to right.  (With an empty `old` the original is returned;
the embedded callers never pass an empty `old`.) -/
def replaceAll (old new : List Char) (hay : List Char) : List Char :=
  if h : old.isEmpty then hay
  else
    match hay with
    | [] => []
    | c :: rest =>
      if listIsPrefix old (c :: rest) then
        new ++ replaceAll old new ((c :: rest).drop old.length)
      else c :: replaceAll old new rest
termination_by hay.length
decreasing_by
  · simp only [List.length_drop, List.length_cons]
    have h1 : 1 ≤ old.length := by
      cases old with
      | nil => simp [List.isEmpty] at h
      | cons x xs => simp
    omega
  · simp

/-- One pass of `_repair_key` over the line list: in the first matching
non-comment line, every occurrence of `var[key]` is rewritten to
`var.get(key)`; the loop then breaks. -/
def repairKeyLines : List String → List String
  | [] => []
  | line :: rest =>
    match findKeyPattern line.data with
    | some (varName, key) =>
      if strStartsWith (pyStrip line) "#" then line :: repairKeyLines rest
      else
        let old := varName ++ "[" ++ key ++ "]"
        let new := varName ++ ".get(" ++ key ++ ")"
        ofChars (replaceAll old.data new.data line.data) :: rest
    | none => line :: repairKeyLines rest

/-- Embeds `_repair_key`. -/
def repairKey (source : String) (_d : Diagnosis) : String :=
  joinNl (repairKeyLines (splitNl source))

/-- Scanner for regex `'(\w+)'` (a word run between single quotes) used by
`_repair_reference` on the root-cause text. -/
def firstQuoted : List Char → Option String
  | [] => none
  | c :: rest =>
    if c == sqChar then
      let w := rest.takeWhile isWordChar
      if w.isEmpty then firstQuoted rest
      else
        match rest.drop w.length with
        | q :: _ => if q == sqChar then some (ofChars w) else firstQuoted rest
        | [] => firstQuoted rest
    else firstQuoted rest

/-- Scanner for the call pattern regex `\b name \s* \(`: a word-boundary
start of the name followed by optional whitespace and an opening paren.
`prevIsWord` tracks whether the previous character was a word character. -/
def callPatternAt (name : List Char) (prevIsWord : Bool) : List Char → Bool
  | [] => false
  | c :: rest =>
    (if !prevIsWord && listIsPrefix name (c :: rest) then
      match ((c :: rest).drop name.length).dropWhile pyIsSpace with
      | '(' :: _ => true
      | _ => callPatternAt name (isWordChar c) rest
    else callPatternAt name (isWordChar c) rest)

/-- Whether the call pattern for `name` matches anywhere in a line. -/
def callPatternMatches (name : List Char) (line : String) : Bool :=
  callPatternAt name false line.data

/-- The variable branch of `_repair_reference`: insert `name = None`
(with the indentation of that line) before the first line containing the
name as a substring. -/
def insertNoneBefore (missing : String) : List String → List String
  | [] => []
  | line :: rest =>
    if strContains line missing then
      let indent := leadingIndent line
      (indent ++ missing ++ " = None") :: line :: rest
    else line :: insertNoneBefore missing rest

/-- Embeds `_repair_reference`. -/
def repairReference (source : String) (d : Diagnosis) : String :=
  match firstQuoted d.rootCause.data with
  | none => source
  | some missing =>
    let lines := splitNl source
    if lines.any (fun ln => callPatternMatches missing.data ln) then
      let indent :=
        match lines.find? (fun ln => callPatternMatches missing.data ln) with
        | some ln => leadingIndent ln
        | none => ""
      let stub := indent ++ "def " ++ missing ++ "(*args, **kwargs):\n" ++
        indent ++ "    pass\n"
      stub ++ source
    else joinNl (insertNoneBefore missing lines)

/-- Whether a character is one of the four binary-operator characters of
regex `[+\-*/]`. -/
def isBinopChar (c : Char) : Bool := c == '+' || c == '-' || c == '*' || c == '/'

/-- Attempt of regex `(\b\w+\b)\s*([+\-*/])\s*(\b\w+\b)` anchored at the
current position (which must start a word run): word run, optional
whitespace, operator, optional whitespace, word run.  Returns the pieces
and the remainder after the match. -/
def matchBinopAt (l : List Char) : Option (List Char × Char × List Char × List Char) :=
  let w1 := l.takeWhile isWordChar
  if w1.isEmpty then none
  else
    let r1 := (l.drop w1.length).dropWhile pyIsSpace
    match r1 with
    | op :: r2 =>
      if isBinopChar op then
        let r3 := r2.dropWhile pyIsSpace
        let w2 := r3.takeWhile isWordChar
        if w2.isEmpty then none
        else some (w1, op, w2, r3.drop w2.length)
      else none
    | [] => none

/-- Leftmost-match substitution of `re.sub(..., count=1)` in `_repair_type`:
rewrite the first `word op word` occurrence into
`int(word) op int(word)`; keep the line unchanged when nothing matches. -/
def subFirstBinop (prevIsWord : Bool) : List Char → List Char
  | [] => []
  | c :: rest =>
    (if !prevIsWord && isWordChar c then
      match matchBinopAt (c :: rest) with
      | some (w1, op, w2, rem) =>
        "int(".data ++ w1 ++ ") ".data ++ [op] ++ " int(".data ++ w2 ++ ")".data ++ rem
      | none => c :: subFirstBinop (isWordChar c) rest
    else c :: subFirstBinop (isWordChar c) rest)

/-- One pass of `_repair_type` over the line list: the first non-comment
line containing an operator character is rewritten (possibly unchanged)
and the loop breaks. -/
def repairTypeLines : List String → List String
  | [] => []
  | line :: rest =>
    if line.data.any isBinopChar && !(strStartsWith (pyStrip line) "#") then
      ofChars (subFirstBinop false line.data) :: rest
    else line :: repairTypeLines rest

/-- Embeds `_repair_type`. -/
def repairType (source : String) (d : Diagnosis) : String :=
  if strContains d.rootCause "unsupported operand" then
    joinNl (repairTypeLines (splitNl source))
  else source

/-- The block-introducing prefixes of `_repair_syntax`: regex
`^\s*(def |if |elif |else|for |while |class |try|except|finally)`. -/
def blockPrefixes : List String :=
  ["def ", "if ", "elif ", "else", "for ", "while ", "class ", "try", "except", "finally"]

/-- Whether a (right-stripped) line matches the block-prefix regex. -/
def matchesBlockStart (stripped : String) : Bool :=
  blockPrefixes.any (fun p => listIsPrefix p.data (stripped.data.dropWhile pyIsSpace))

/-- The colon-fixing pass of `_repair_syntax`. -/
def fixColons (lines : List String) : List String :=
  lines.map (fun line =>
    let stripped := pyRstrip line
    if matchesBlockStart stripped then
      if !(stripped == "") && !(strEndsWith stripped ":") && !(strEndsWith stripped "\\") then
        stripped ++ ":"
      else line
    else line)

/-- Append a string to the last element of a nonempty line list
(`lines[-1] = lines[-1] + s`). -/
def appendToLast (s : String) : List String → List String
  | [] => []
  | [x] => [x ++ s]
  | x :: y :: xs => x :: appendToLast s (y :: xs)

/-- The inner while loop of the extra-paren removal in `_repair_syntax`:
while the budget is positive and the right-stripped line ends with a
closing paren, right-strip the line and drop its last character. -/
def stripCloseFromLine : Nat → List Char → Nat × List Char
  | 0, line => (0, line)
  | d + 1, line =>
    let r := rstripChars line
    if endsWithChar r ')' then stripCloseFromLine d (dropLastChar r)
    else (d + 1, line)

/-- The outer loop of the extra-paren removal, walking the lines from last
to first (the input here is the reversed line list). -/
def stripCloseRev (diff : Nat) : List (List Char) → List (List Char)
  | [] => []
  | l :: rest =>
    let p := stripCloseFromLine diff l
    if p.1 == 0 then p.2 :: rest else p.2 :: stripCloseRev p.1 rest

/-- Embeds `_repair_syntax`: fix missing colons on block-introducing
lines, then balance parentheses counted on the original source. -/
def repairSyntaxFix (source : String) (_d : Diagnosis) : String :=
  let lines := fixColons (splitNl source)
  let oc := source.data.count '('
  let cc := source.data.count ')'
  let lines2 :=
    if cc < oc then appendToLast (ofChars (List.replicate (oc - cc) ')')) lines
    else if oc < cc then
      (stripCloseRev (cc - oc) ((lines.map (fun s => s.data)).reverse)).reverse.map ofChars
    else lines
  joinNl lines2

/-- Scanner for regex `def \w+\((\w+)` in `_repair_recursion`: the leftmost
`def `, a nonempty word run, an opening paren, and a nonempty word run
(the first parameter name), which is returned. -/
def findDefParam : List Char → Option String
  | [] => none
  | c :: rest =>
    if listIsPrefix ("def ".data) (c :: rest) then
      let after := (c :: rest).drop 4
      let w := after.takeWhile isWordChar
      if w.isEmpty then findDefParam rest
      else
        match after.drop w.length with
        | '(' :: r1 =>
          let p := r1.takeWhile isWordChar
          if p.isEmpty then findDefParam rest else some (ofChars p)
        | _ => findDefParam rest
    else findDefParam rest

/-- One pass of `_repair_recursion` over the line list: after the first
line whose stripped form starts with `def `, insert a base case (when a
parameter name is found); the loop then breaks. -/
def repairRecursionLines : List String → List String
  | [] => []
  | line :: rest =>
    if strStartsWith (pyStrip line) "def " then
      match findDefParam line.data with
      | some param =>
        let bodyIndent := leadingIndent line ++ "    "
        let baseCase := bodyIndent ++ "if " ++ param ++ " <= 0:\n" ++
          bodyIndent ++ "    return 0\n"
        line :: baseCase :: rest
      | none => line :: rest
    else line :: repairRecursionLines rest

/-- Embeds `_repair_recursion`. -/
def repairRecursion (source : String) (_d : Diagnosis) : String :=
  joinNl (repairRecursionLines (splitNl source))

/-- The fixed dispatch table `repair_handlers` of `repair_code`, as a
function from category to built-in handler. -/
def handlerFor (category : String) : Option (String → Diagnosis → String) :=
  if category == "syntax" then some repairSyntaxFix
  else if category == "reference" then some repairReference
  else if category == "type" then some repairType
  else if category == "index" then some repairIndex
  else if category == "key" then some repairKey
  else if category == "arithmetic" then some repairArithmetic
  else if category == "recursion" then some repairRecursion
  else none

/-- Embeds `repair_code` (see the section comment): built-in handler
first; external fallback only when the handler made no change or no
handler exists. -/
def repair_code (cli : Option (String → Diagnosis → String))
    (source : String) (diagnosis : Diagnosis) : String :=
  match handlerFor diagnosis.errorCategory with
  | some h =>
    let repaired := h source diagnosis
    if repaired == source then
      match cli with
      | some f => f source diagnosis
      | none => source
    else repaired
  | none =>
    match cli with
    | some f => f source diagnosis
    | none => source

/-! ## Iteration controller (`pipeline.py`, `run_pipeline`)

The understanding/design/programming stages are glue excluded by the spec
(`generate(task) -> sourceText` is a black box), so the loop is entered
with the generated source as a parameter.  Stage 4 (the sandbox) is the
black-box parameter `execFn`; stage 6 calls the repair engine through the
parameter `repairFn` (instantiated with `repair_code` where needed).
The glue fields of `PipelineResult` (task description, requirements,
design) are not represented. -/

/-- Embeds the dataclass `IterationRecord` of `pipeline.py`. -/
structure IterationRecord where
  iteration : Nat
  sourceCode : String
  executionResult : ExecutionResult
  diagnosis : Option Diagnosis := none
  repaired : Bool := false
deriving DecidableEq

/-- Embeds the dataclass `PipelineResult` of `pipeline.py` (core fields). -/
structure PipelineResult where
  success : Bool
  finalCode : String
  iterations : List IterationRecord := []
  totalIterations : Nat := 0
  finalResult : Option ExecutionResult := none
deriving DecidableEq

/-- The `for iteration in range(1, max_iterations + 1)` loop of
`run_pipeline`, with `fuel` counting the iterations still allowed (so the
current iteration number is `maxIterations - fuel + 1`, carried as
`maxIterations - fuel` on the `fuel + 1` pattern). -/
def runLoopAux (execFn : String → ExecutionResult) (repairFn : String → Diagnosis → String)
    (maxIterations : Nat) :
    Nat → String → List IterationRecord → PipelineResult
  | 0, source, acc =>
    { success := false, finalCode := source, iterations := acc,
      totalIterations := maxIterations,
      finalResult := acc.getLast?.map (fun r => r.executionResult) }
  | fuel + 1, source, acc =>
    let iteration := maxIterations - fuel
    let result := execFn source
    if result.success then
      let record : IterationRecord :=
        { iteration := iteration, sourceCode := source, executionResult := result }
      { success := true, finalCode := source, iterations := acc ++ [record],
        totalIterations := iteration, finalResult := some result }
    else
      match diagnose result with
      | some diag =>
        let candidate := repairFn source diag
        let changed := !(candidate == source)
        let record : IterationRecord :=
          { iteration := iteration, sourceCode := source, executionResult := result,
            diagnosis := some diag, repaired := changed }
        runLoopAux execFn repairFn maxIterations fuel
          (if changed then candidate else source) (acc ++ [record])
      | none =>
        let record : IterationRecord :=
          { iteration := iteration, sourceCode := source, executionResult := result }
        runLoopAux execFn repairFn maxIterations fuel source (acc ++ [record])

/-- Embeds the iteration loop of `run_pipeline` (lines 99-163), entered
with the initial source text produced by the generation stage. -/
def runPipeline (execFn : String → ExecutionResult) (repairFn : String → Diagnosis → String)
    (maxIterations : Nat) (source : String) : PipelineResult :=
  runLoopAux execFn repairFn maxIterations maxIterations source []

/-! ## Task scheduler (`agent.py`, class `Agent`)

The agent's task registry is a Python dict keyed by unique task id and
iterated in insertion order; it is embedded as a `List TaskInfo` (the id
uniqueness `add_task` enforces appears as a `Nodup` hypothesis in the
theorems).  The pipeline call made for each task is the black-box
parameter `pf`; a Python exception from it is modeled as `Except.error`.
Observable agent state after `run()` — the possibly raised cycle error,
the task map, and the list of tasks actually handed to the pipeline — is
collected in `AgentOutcome`. -/

/-- Embeds the enum `TaskStatus`. -/
inductive TaskStatus where
  | pending
  | running
  | completed
  | failed
  | skipped
deriving DecidableEq

/-- Embeds the enum `TaskPriority`. -/
inductive TaskPriority where
  | low
  | normal
  | high
deriving DecidableEq

/-- The numeric `value` of a `TaskPriority` member. -/
def TaskPriority.value : TaskPriority → Nat
  | .low => 1
  | .normal => 2
  | .high => 3

/-- Embeds the dataclass `TaskInfo` of `agent.py`. -/
structure TaskInfo where
  taskId : String
  description : String := ""
  testCall : Option String := none
  priority : TaskPriority := .normal
  dependencies : List String := []
  status : TaskStatus := .pending
  result : Option PipelineResult := none
  errorMessage : Option String := none
deriving DecidableEq

/-- The registry key list, in insertion order. -/
def taskIds (ts : List TaskInfo) : List String := ts.map (fun t => t.taskId)

/-- Dict lookup `self._tasks[tid]` / `self._tasks.get(tid)`. -/
def findTask (ts : List TaskInfo) (tid : String) : Option TaskInfo :=
  ts.find? (fun t => t.taskId == tid)

/-- The status/message update applied when a dependency id is unknown. -/
def markMissing (t : TaskInfo) (d : String) : TaskInfo :=
  { t with status := .skipped,
           errorMessage := some ("Dependency " ++ sq ++ d ++ sq ++ " not found") }

/-- The dependency-validation loop of `_resolve_order` for one task: each
dependency id absent from the registry marks the task skipped with a
message naming that id (a later missing id overwrites an earlier one). -/
def validateTask (ids : List String) (t : TaskInfo) : TaskInfo :=
  t.dependencies.foldl (fun acc d => if ids.contains d then acc else markMissing acc d) t

/-- The dependency-validation phase of `_resolve_order` over the registry. -/
def validateDeps (ts : List TaskInfo) : List TaskInfo :=
  ts.map (validateTask (taskIds ts))

/-- Pointwise update of an in-degree table. -/
def updFn (f : String → Int) (k : String) (v : Int) : String → Int :=
  fun x => if x == k then v else f x

/-- The in-degree contribution of one task: one increment of its own
entry per dependency that is a registry key (skipped tasks contribute
nothing). -/
def bumpDeps (ids : List String) (f : String → Int) (t : TaskInfo) : String → Int :=
  if t.status == .skipped then f
  else t.dependencies.foldl
    (fun g d => if ids.contains d then updFn g t.taskId (g t.taskId + 1) else g) f

/-- The in-degree counting loop of `_resolve_order` (every registry key
starts at zero). -/
def computeInDeg (ts : List TaskInfo) : String → Int :=
  ts.foldl (bumpDeps (taskIds ts)) (fun _ => 0)

/-- The sort key `self._tasks[tid].priority.value`. -/
def prioVal (ts : List TaskInfo) (tid : String) : Nat :=
  match findTask ts tid with
  | some t => t.priority.value
  | none => 0

/-- Stable descending insertion: the new id goes after every queued id of
priority greater than or equal to its own. -/
def insertDesc (ts : List TaskInfo) (tid : String) : List String → List String
  | [] => [tid]
  | h :: r =>
    if prioVal ts tid ≤ prioVal ts h then h :: insertDesc ts tid r
    else tid :: h :: r

/-- Python `sorted(queue, key=priority.value, reverse=True)` /
`queue.sort(...)`: a stable descending sort by priority. -/
def sortDesc (ts : List TaskInfo) (q : List String) : List String :=
  q.foldl (fun acc x => insertDesc ts x acc) []

/-- One task's share of the dependent-decrement loop run after processing
`tid`: a non-skipped task whose dependency list contains `tid` has its
in-degree entry decremented, and is appended to the queue when the new
value is zero. -/
def decStep (tid : String) (acc : (String → Int) × List String) (t : TaskInfo) :
    (String → Int) × List String :=
  if t.status == .skipped then acc
  else if t.dependencies.contains tid then
    let d := acc.1 t.taskId - 1
    (updFn acc.1 t.taskId d, if d == 0 then acc.2 ++ [t.taskId] else acc.2)
  else acc

/-- The full dependent-decrement loop over the registry. -/
def decrementStep (ts : List TaskInfo) (tid : String) (inDeg : String → Int)
    (queue : List String) : (String → Int) × List String :=
  ts.foldl (decStep tid) (inDeg, queue)

/-- The body of the Kahn while loop of `_resolve_order`, with explicit
fuel.  Fuel exhaustion and an unregistered queue id are unreachable for
the states the program produces (`kahnLoop` below supplies sufficient
fuel; the Python queue only ever holds registry keys) and both fall back
to returning the current state. -/
def kahnLoopF (ts : List TaskInfo) :
    Nat → (String → Int) → List String → List String → List String →
    (String → Int) × List String
  | 0, inDeg, _queue, _visited, order => (inDeg, order)
  | fuel + 1, inDeg, queue, visited, order =>
    match queue with
    | [] => (inDeg, order)
    | tid :: rest =>
      if visited.contains tid then kahnLoopF ts fuel inDeg rest visited order
      else if (taskIds ts).contains tid then
        let p := decrementStep ts tid inDeg rest
        kahnLoopF ts fuel p.1 (sortDesc ts p.2) (tid :: visited) (order ++ [tid])
      else kahnLoopF ts fuel inDeg rest visited order

/-- A strict upper bound on the number of loop steps still possible from a
Kahn state: every step either visits a new registry key or shortens the
queue, and one visit enqueues at most `ts.length` new ids. -/
def kahnMeasure (ts : List TaskInfo) (queue visited : List String) : Nat :=
  ((taskIds ts).filter (fun x => !(visited.contains x))).length * (ts.length + 1) +
    queue.length + 1

/-- The Kahn while loop started on a seed queue with empty visited set and
empty order, run with sufficient fuel; returns the final in-degree table
and the computed order. -/
def kahnLoop (ts : List TaskInfo) (inDeg : String → Int) (queue : List String) :
    (String → Int) × List String :=
  kahnLoopF ts (kahnMeasure ts queue []) inDeg queue [] []

/-- The seed queue of `_resolve_order`: the registry keys of in-degree
zero whose task is not skipped, in insertion order, stably sorted by
priority descending. -/
def seedQueue (ts : List TaskInfo) (inDeg : String → Int) : List String :=
  sortDesc ts ((ts.filter (fun t => inDeg t.taskId == 0 && !(t.status == .skipped))).map
    (fun t => t.taskId))

/-- In-degree counting, seeding, and the Kahn loop of `_resolve_order`,
bundled: the result is the final in-degree table and the computed order. -/
def kahnResult (ts1 : List TaskInfo) : (String → Int) × List String :=
  kahnLoop ts1 (computeInDeg ts1) (seedQueue ts1 (computeInDeg ts1))

/-- Embeds `_resolve_order`: validation, ordering, and the cycle check.
The first component is the registry after validation (Python mutates the
tasks in place); the second is either the raised `ValueError` payload (the
ids still holding positive in-degree, non-skipped, in insertion order) or
the computed execution order. -/
def resolve_order (ts : List TaskInfo) : List TaskInfo × Except (List String) (List String) :=
  let ts1 := validateDeps ts
  let r := kahnResult ts1
  let remaining := (ts1.filter
    (fun t => decide (0 < r.1 t.taskId) && !(t.status == .skipped))).map (fun t => t.taskId)
  (ts1, if remaining.isEmpty then Except.ok r.2 else Except.error remaining)

/-- The dependency check made just before running a task: every dependency
that is a registry key must have completed status (unknown ids pass the
generator filter vacuously). -/
def depsOk (ts : List TaskInfo) (t : TaskInfo) : Bool :=
  t.dependencies.all (fun dep =>
    match findTask ts dep with
    | some d => d.status == .completed
    | none => true)

/-- Replace the registry entry with the given id. -/
def updateTask (ts : List TaskInfo) (tid : String) (f : TaskInfo → TaskInfo) :
    List TaskInfo :=
  ts.map (fun t => if t.taskId == tid then f t else t)

/-- The update applied when the pipeline returns a successful result. -/
def markCompleted (pr : PipelineResult) (t : TaskInfo) : TaskInfo :=
  { t with status := .completed, result := some pr }

/-- The update applied when the pipeline returns an unsuccessful result. -/
def markFailed (pr : PipelineResult) (t : TaskInfo) : TaskInfo :=
  { t with status := .failed, result := some pr,
           errorMessage := some "Pipeline did not succeed" }

/-- The update applied when the pipeline call raises an exception. -/
def markException (msg : String) (t : TaskInfo) : TaskInfo :=
  { t with status := .failed, errorMessage := some msg }

/-- The update applied when a dependency did not end completed. -/
def markDepFailed (t : TaskInfo) : TaskInfo :=
  { t with status := .skipped,
           errorMessage := some "Skipped because a dependency failed" }

/-- One iteration of the execution loop of `Agent.run` for the task id at
the head of the order (see the section comment): the second component
reports whether the pipeline was invoked.  The missing-task fallback is
unreachable (order ids are registry keys). -/
def runTaskStep (pf : TaskInfo → Except String PipelineResult)
    (ts : List TaskInfo) (tid : String) : List TaskInfo × Bool :=
  match findTask ts tid with
  | none => (ts, false)
  | some task =>
    if depsOk ts task then
      match pf task with
      | Except.ok pr =>
        if pr.success then (updateTask ts tid (markCompleted pr), true)
        else (updateTask ts tid (markFailed pr), true)
      | Except.error msg => (updateTask ts tid (markException msg), true)
    else (updateTask ts tid markDepFailed, false)

/-- The execution loop of `Agent.run` over the computed order, threading
the registry and accumulating the ids for which the pipeline was invoked. -/
def execOrderAux (pf : TaskInfo → Except String PipelineResult) :
    List TaskInfo → List String → List String → List TaskInfo × List String
  | ts, [], inv => (ts, inv)
  | ts, tid :: rest, inv =>
    let p := runTaskStep pf ts tid
    execOrderAux pf p.1 rest (if p.2 then inv ++ [tid] else inv)

/-- Observable agent state after `Agent.run`: the dependency-cycle error
payload when `_resolve_order` raised, the final registry, and the ids for
which the pipeline was invoked. -/
structure AgentOutcome where
  cycleError : Option (List String)
  tasks : List TaskInfo
  invoked : List String
deriving DecidableEq

/-- Embeds `Agent.run`: resolve the order (validation mutations included),
propagating a cycle error before any task executes; otherwise execute the
tasks in order. -/
def agentRun (pf : TaskInfo → Except String PipelineResult) (ts : List TaskInfo) :
    AgentOutcome :=
  let p := resolve_order ts
  match p.2 with
  | Except.error remaining => { cycleError := some remaining, tasks := p.1, invoked := [] }
  | Except.ok order =>
    let q := execOrderAux pf p.1 order []
    { cycleError := none, tasks := q.1, invoked := q.2 }

/-! ## Concrete fixtures shared by several verification results -/

/-- A failed execution outcome carrying a `ValueError`. -/
def rFail : ExecutionResult :=
  { success := false, error := some "boom", errorType := some "ValueError" }

/-- The diagnosis the engine produces for `rFail`. -/
def dgValue : Diagnosis :=
  { errorCategory := "value", rootCause := "Invalid value: boom",
    suggestion := "Review the error message and fix the code accordingly",
    lineNumber := none }

/-- A sandbox stub that fails every attempt with `rFail`. -/
def execFail : String → ExecutionResult := fun _ => rFail

/-- The repair engine with no external command configured. -/
def repairBuiltin : String → Diagnosis → String := fun s d => repair_code none s d

/-! ## Iteration-loop lemmas -/

/-- `diagnose` returns no diagnosis exactly for successful outcomes. -/
theorem diagnose_none_iff (r : ExecutionResult) : diagnose r = none ↔ r.success = true := by
  by_cases h : r.success = true <;> simp [diagnose, h]

/-- Each unit of fuel appends at most one iteration record. -/
theorem runLoopAux_len (eF : String → ExecutionResult) (rF : String → Diagnosis → String)
    (m : Nat) :
    ∀ (fuel : Nat) (source : String) (acc : List IterationRecord),
      (runLoopAux eF rF m fuel source acc).iterations.length ≤ acc.length + fuel := by
  intro fuel
  induction fuel with
  | zero => intro source acc; simp [runLoopAux]
  | succ n ih =>
    intro source acc
    by_cases hs : (eF source).success = true
    · simp [runLoopAux, hs]
    · cases hd : diagnose (eF source) with
      | some diag =>
        simp only [runLoopAux, hs, hd, if_false, Bool.false_eq_true]
        refine le_trans (ih _ _) ?_
        simp
        omega
      | none =>
        simp only [runLoopAux, hs, hd, if_false, Bool.false_eq_true]
        refine le_trans (ih _ _) ?_
        simp
        omega

/-- Every record of a failed iteration carries a diagnosis: the
`no diagnosis available` branch of the loop is unreachable. -/
theorem runLoopAux_diag (eF : String → ExecutionResult) (rF : String → Diagnosis → String)
    (m : Nat) :
    ∀ (fuel : Nat) (source : String) (acc : List IterationRecord),
      (∀ rec ∈ acc, rec.executionResult.success = false → rec.diagnosis.isSome = true) →
      ∀ rec ∈ (runLoopAux eF rF m fuel source acc).iterations,
        rec.executionResult.success = false → rec.diagnosis.isSome = true := by
  intro fuel
  induction fuel with
  | zero =>
    intro source acc hacc
    simpa [runLoopAux] using hacc
  | succ n ih =>
    intro source acc hacc
    by_cases hs : (eF source).success = true
    · simp only [runLoopAux, hs, if_true]
      intro rec hrec hfail
      rcases List.mem_append.mp hrec with h | h
      · exact hacc rec h hfail
      · exfalso
        have : rec.executionResult = eF source := by
          simp at h
          simp [h]
        rw [this] at hfail
        rw [hs] at hfail
        exact absurd hfail (by decide)
    · cases hd : diagnose (eF source) with
      | some diag =>
        simp only [runLoopAux, hs, hd, if_false, Bool.false_eq_true]
        refine ih _ _ ?_
        intro rec hrec hfail
        rcases List.mem_append.mp hrec with h | h
        · exact hacc rec h hfail
        · simp at h
          simp [h]
      | none =>
        exfalso
        have := (diagnose_none_iff (eF source)).mp hd
        exact hs this

/-- C7 — the iteration loop terminates and `runLoop` with
`maxIterations = N` produces at most `N` iteration records, however often
repair changes the source.  Confirms the claim as stated. -/
theorem c7_iteration_bound (eF : String → ExecutionResult)
    (rF : String → Diagnosis → String) (N : Nat) (src : String) :
    (runPipeline eF rF N src).iterations.length ≤ N := by
  simpa using runLoopAux_len eF rF N N src []

/-- C10 — `diagnose` returns no diagnosis exactly for successful
outcomes, so every failed iteration record carries a diagnosis and the
`diagnosis unavailable` branch of the loop never fires.  Confirms the
claim. -/
theorem c10_diagnosis_available :
    (∀ r : ExecutionResult, diagnose r = none ↔ r.success = true) ∧
    (∀ (eF : String → ExecutionResult) (rF : String → Diagnosis → String)
       (N : Nat) (src : String), ∀ rec ∈ (runPipeline eF rF N src).iterations,
       rec.executionResult.success = false → rec.diagnosis.isSome = true) := by
  constructor
  · exact diagnose_none_iff
  · intro eF rF N src
    exact runLoopAux_diag eF rF N N src [] (by simp)

/-- Witness for C10 at a concrete failing run. -/
theorem c10_witness :
    (diagnose rFail = none ↔ rFail.success = true) ∧
    ({ iteration := 1, sourceCode := "x = 1", executionResult := rFail,
       diagnosis := some dgValue, repaired := false } : IterationRecord).diagnosis.isSome
      = true := by
  constructor
  · exact c10_diagnosis_available.1 rFail
  · exact c10_diagnosis_available.2 execFail repairBuiltin 1 "x = 1" _ (by decide) (by decide)

/-- C8 — the diagnosis engine is deterministic: two diagnoses of one and
the same outcome agree in every component.  (Side-effect freedom holds by
construction of the embedding: the Python function reads nothing but its
argument, which the pure Lean function `diagnose` mirrors.)  Confirms the
claim. -/
theorem c8_diagnose_deterministic (r : ExecutionResult) (d₁ d₂ : Diagnosis)
    (h₁ : diagnose r = some d₁) (h₂ : diagnose r = some d₂) :
    d₁.errorCategory = d₂.errorCategory ∧ d₁.rootCause = d₂.rootCause ∧
    d₁.suggestion = d₂.suggestion ∧ d₁.lineNumber = d₂.lineNumber := by
  rw [h₁] at h₂
  cases h₂
  exact ⟨rfl, rfl, rfl, rfl⟩

/-- Witness for C8 at a concrete failed outcome. -/
theorem c8_witness :
    diagnose rFail = some dgValue ∧ dgValue.errorCategory = dgValue.errorCategory := by
  refine ⟨by decide, ?_⟩
  exact (c8_diagnose_deterministic rFail dgValue dgValue (by decide) (by decide)).1

/-- The diagnosis category always lands in the table image plus default. -/
theorem categorize_error_mem (s : String) :
    categorize_error s ∈ ["syntax", "reference", "type", "value", "index", "key",
      "arithmetic", "recursion", "import", "io", "runtime"] := by
  unfold categorize_error
  by_cases h1 : (s == "SyntaxError") = true
  · rw [if_pos h1]; decide
  rw [if_neg h1]
  by_cases h2 : (s == "IndentationError") = true
  · rw [if_pos h2]; decide
  rw [if_neg h2]
  by_cases h3 : (s == "TabError") = true
  · rw [if_pos h3]; decide
  rw [if_neg h3]
  by_cases h4 : (s == "NameError") = true
  · rw [if_pos h4]; decide
  rw [if_neg h4]
  by_cases h5 : (s == "AttributeError") = true
  · rw [if_pos h5]; decide
  rw [if_neg h5]
  by_cases h6 : (s == "TypeError") = true
  · rw [if_pos h6]; decide
  rw [if_neg h6]
  by_cases h7 : (s == "ValueError") = true
  · rw [if_pos h7]; decide
  rw [if_neg h7]
  by_cases h8 : (s == "IndexError") = true
  · rw [if_pos h8]; decide
  rw [if_neg h8]
  by_cases h9 : (s == "KeyError") = true
  · rw [if_pos h9]; decide
  rw [if_neg h9]
  by_cases h10 : (s == "ZeroDivisionError") = true
  · rw [if_pos h10]; decide
  rw [if_neg h10]
  by_cases h11 : (s == "RecursionError") = true
  · rw [if_pos h11]; decide
  rw [if_neg h11]
  by_cases h12 : (s == "ImportError") = true
  · rw [if_pos h12]; decide
  rw [if_neg h12]
  by_cases h13 : (s == "ModuleNotFoundError") = true
  · rw [if_pos h13]; decide
  rw [if_neg h13]
  by_cases h14 : (s == "FileNotFoundError") = true
  · rw [if_pos h14]; decide
  rw [if_neg h14]
  by_cases h15 : (s == "IOError") = true
  · rw [if_pos h15]; decide
  rw [if_neg h15]
  by_cases h16 : (s == "PermissionError") = true
  · rw [if_pos h16]; decide
  rw [if_neg h16]
  decide

/-- C3 counterexample — the claim fixes the category enumeration as
{syntax, reference, type, index, key, arithmetic, recursion, import, io,
runtime-other}, but the code maps a `ValueError` outcome to the category
`"value"`, which lies outside that enumeration (and its fallback category
is spelled `"runtime"`, not `"runtime-other"`). -/
theorem c3_counterexample :
    rFail.success = false ∧
    (diagnose rFail).map (fun d => d.errorCategory) = some "value" ∧
    "value" ∉ ["syntax", "reference", "type", "index", "key", "arithmetic",
      "recursion", "import", "io", "runtime-other"] ∧
    categorize_error "SomeOtherError" = "runtime" := by
  refine ⟨rfl, by decide, by decide, by decide⟩

/-- C3 amended — for every failed outcome the produced category is one of
the eleven categories {syntax, reference, type, value, index, key,
arithmetic, recursion, import, io, runtime}, and every error-kind tag
outside the lookup table maps to `"runtime"`. -/
theorem c3_amended :
    (∀ r : ExecutionResult, r.success = false →
      ∃ d, diagnose r = some d ∧
        d.errorCategory ∈ ["syntax", "reference", "type", "value", "index", "key",
          "arithmetic", "recursion", "import", "io", "runtime"]) ∧
    (∀ tag : String, tag ∉ categoryTableKeys → categorize_error tag = "runtime") := by
  constructor
  · intro r hr
    have hs : r.success ≠ true := by simp [hr]
    simp only [diagnose, if_neg hs]
    exact ⟨_, rfl, categorize_error_mem _⟩
  · intro tag h
    simp only [categoryTableKeys, List.mem_cons, List.not_mem_nil, or_false] at h
    push_neg at h
    obtain ⟨n1, n2, n3, n4, n5, n6, n7, n8, n9, n10, n11, n12, n13, n14, n15, n16⟩ := h
    unfold categorize_error
    rw [if_neg (by simpa using n1), if_neg (by simpa using n2),
      if_neg (by simpa using n3), if_neg (by simpa using n4),
      if_neg (by simpa using n5), if_neg (by simpa using n6),
      if_neg (by simpa using n7), if_neg (by simpa using n8),
      if_neg (by simpa using n9), if_neg (by simpa using n10),
      if_neg (by simpa using n11), if_neg (by simpa using n12),
      if_neg (by simpa using n13), if_neg (by simpa using n14),
      if_neg (by simpa using n15), if_neg (by simpa using n16)]

/-- Witness for C3 amended at a concrete failed outcome and tag. -/
theorem c3_witness :
    rFail.success = false ∧
    (∃ d, diagnose rFail = some d ∧
      d.errorCategory ∈ ["syntax", "reference", "type", "value", "index", "key",
        "arithmetic", "recursion", "import", "io", "runtime"]) ∧
    "SomeOtherError" ∉ categoryTableKeys ∧
    categorize_error "SomeOtherError" = "runtime" := by
  refine ⟨rfl, c3_amended.1 rFail rfl, by decide, c3_amended.2 "SomeOtherError" (by decide)⟩

/-- C9 — for the source `"result = a / b"` and any diagnosis with the
arithmetic category, the built-in repair inserts a guard comparing the
divisor `b` against zero (regardless of any configured external command,
which the built-in handler preempts).  Confirms the claim. -/
theorem c9_divide_guard (d : Diagnosis) (cli : Option (String → Diagnosis → String))
    (h : d.errorCategory = "arithmetic") :
    strContains (repair_code cli "result = a / b" d) "if b == 0:" = true := by
  have e1 : handlerFor d.errorCategory = some repairArithmetic := by rw [h]; rfl
  have e2 : repairArithmetic "result = a / b" d =
      "if b == 0:\n    b = 1  # avoid division by zero\n\nresult = a / b" := rfl
  simp only [repair_code, e1]
  rw [e2]
  rw [if_neg (by decide)]
  decide

/-- Witness for C9 at a concrete arithmetic diagnosis. -/
theorem c9_witness :
    ({ errorCategory := "arithmetic", rootCause := "Division by zero encountered",
       suggestion := "Add a check for zero before performing division" }
        : Diagnosis).errorCategory = "arithmetic" ∧
    strContains (repair_code none "result = a / b"
      { errorCategory := "arithmetic", rootCause := "Division by zero encountered",
        suggestion := "Add a check for zero before performing division" })
      "if b == 0:" = true :=
  ⟨rfl, c9_divide_guard _ none rfl⟩

/-- C1 counterexample — the claim says a repair candidate textually
identical to the current source stops the loop at that iteration with no
further record.  In the code the loop does not break: with a budget of 2
iterations, a diagnosis whose category has no applicable repair (identity
repair) still yields 2 iteration records and 2 execution attempts. -/
theorem c1_counterexample :
    diagnose (execFail "x = 1") = some dgValue ∧
    repairBuiltin "x = 1" dgValue = "x = 1" ∧
    (runPipeline execFail repairBuiltin 2 "x = 1").iterations.length = 2 ∧
    (runPipeline execFail repairBuiltin 2 "x = 1").iterations.map
      (fun r => r.repaired) = [false, false] := by
  refine ⟨by decide, by decide, by decide, by decide⟩

/-- The loop is stuck on a fixed point of repair: each iteration re-runs
the same source and appends one more unrepaired record. -/
theorem runLoopAux_stuck (eF : String → ExecutionResult) (rF : String → Diagnosis → String)
    (m : Nat) (src : String) (d : Diagnosis) (hfail : (eF src).success = false)
    (hdiag : diagnose (eF src) = some d) (hid : rF src d = src) :
    ∀ (fuel : Nat) (acc : List IterationRecord),
      (runLoopAux eF rF m fuel src acc).iterations.length = acc.length + fuel ∧
      ∀ rec ∈ (runLoopAux eF rF m fuel src acc).iterations,
        rec ∈ acc ∨ (rec.sourceCode = src ∧ rec.repaired = false) := by
  intro fuel
  induction fuel with
  | zero =>
    intro acc
    constructor
    · simp [runLoopAux]
    · intro rec hrec
      left
      simpa [runLoopAux] using hrec
  | succ n ih =>
    intro acc
    have hs : ¬ (eF src).success = true := by simp [hfail]
    have hch : (!(rF src d == src)) = false := by rw [hid]; simp
    have hih := ih (acc ++ [⟨m - n, src, eF src, some d, false⟩])
    simp only [runLoopAux, if_neg hs, hdiag, hch, Bool.false_eq_true, if_false]
    constructor
    · rw [hih.1]
      simp
      omega
    · intro rec hrec
      rcases hih.2 rec hrec with h' | h'
      · rcases List.mem_append.mp h' with h'' | h''
        · exact Or.inl h''
        · right
          simp at h''
          simp [h'']
      · exact Or.inr h'

/-- C1 amended — when the repair candidate is textually identical to the
current source for a failing source, the loop does not stop early: it
records the iteration with `repaired = false` and retries the same source,
producing exactly `maxIterations` records. -/
theorem c1_amended (eF : String → ExecutionResult) (rF : String → Diagnosis → String)
    (N : Nat) (src : String) (d : Diagnosis) (hfail : (eF src).success = false)
    (hdiag : diagnose (eF src) = some d) (hid : rF src d = src) :
    (runPipeline eF rF N src).iterations.length = N ∧
    ∀ rec ∈ (runPipeline eF rF N src).iterations,
      rec.sourceCode = src ∧ rec.repaired = false := by
  have h := runLoopAux_stuck eF rF N src d hfail hdiag hid N []
  constructor
  · simpa [runPipeline] using h.1
  · intro rec hrec
    rcases h.2 rec hrec with h' | h'
    · simp at h'
    · exact h'

/-- Witness for C1 amended at the concrete stuck run. -/
theorem c1_witness :
    (execFail "x = 1").success = false ∧
    diagnose (execFail "x = 1") = some dgValue ∧
    repairBuiltin "x = 1" dgValue = "x = 1" ∧
    (runPipeline execFail repairBuiltin 3 "x = 1").iterations.length = 3 :=
  ⟨rfl, by decide, by decide,
    (c1_amended execFail repairBuiltin 3 "x = 1" dgValue rfl (by decide) (by decide)).1⟩

/-! ## Scheduler lemmas: registry lookups and updates -/

/-- `markMissing` does not change the task id. -/
theorem markMissing_taskId (t : TaskInfo) (d : String) :
    (markMissing t d).taskId = t.taskId := rfl

/-- Updating a marked task again keeps only the last mark. -/
theorem markMissing_comp (t : TaskInfo) (d₁ d₂ : String) :
    markMissing (markMissing t d₁) d₂ = markMissing t d₂ := rfl

/-- A successful registry lookup returns a task with the looked-up id. -/
theorem findTask_some_taskId {ts : List TaskInfo} {tid : String} {t : TaskInfo}
    (h : findTask ts tid = some t) : t.taskId = tid := by
  have hp := List.find?_some h
  simpa using hp

/-- With distinct ids, every registered task is found under its id. -/
theorem find_of_mem_nodup {ts : List TaskInfo} {t : TaskInfo}
    (hnd : (taskIds ts).Nodup) (ht : t ∈ ts) : findTask ts t.taskId = some t := by
  induction ts with
  | nil => cases ht
  | cons u us ih =>
    have hnd2 : u.taskId ∉ taskIds us ∧ (taskIds us).Nodup := by
      have he : taskIds (u :: us) = u.taskId :: taskIds us := rfl
      rw [he] at hnd
      exact List.nodup_cons.mp hnd
    rcases List.mem_cons.mp ht with he | hmem
    · subst he
      unfold findTask
      simp [List.find?_cons]
    · have hne : (u.taskId == t.taskId) = false := by
        simp only [beq_eq_false_iff_ne, ne_eq]
        intro he
        exact hnd2.1 (by rw [he]; exact List.mem_map_of_mem _ hmem)
      unfold findTask
      simp only [List.find?_cons, hne]
      exact ih hnd2.2 hmem

/-- Lookup commutes with an id-preserving map over the registry. -/
theorem findTask_map {f : TaskInfo → TaskInfo} (hpres : ∀ t, (f t).taskId = t.taskId)
    (ts : List TaskInfo) (tid : String) :
    findTask (ts.map f) tid = (findTask ts tid).map f := by
  induction ts with
  | nil => rfl
  | cons u us ih =>
    unfold findTask
    simp only [List.map_cons, List.find?_cons, hpres u]
    cases h : u.taskId == tid with
    | true => rfl
    | false => exact ih

/-- Lookup through `updateTask` for an id-preserving update. -/
theorem findTask_update {f : TaskInfo → TaskInfo} (hpres : ∀ t, (f t).taskId = t.taskId)
    (ts : List TaskInfo) (tid x : String) :
    findTask (updateTask ts tid f) x =
      (findTask ts x).map (fun t => if t.taskId == tid then f t else t) := by
  unfold updateTask
  exact findTask_map (fun t => by by_cases h : (t.taskId == tid) = true <;>
    simp [h, hpres]) ts x

/-- `updateTask` on a different id leaves a lookup unchanged. -/
theorem findTask_update_other {f : TaskInfo → TaskInfo}
    (hpres : ∀ t, (f t).taskId = t.taskId) (ts : List TaskInfo) {tid x : String}
    (hx : x ≠ tid) : findTask (updateTask ts tid f) x = findTask ts x := by
  rw [findTask_update hpres]
  cases hf : findTask ts x with
  | none => rfl
  | some t =>
    have := findTask_some_taskId hf
    simp only [Option.map_some']
    rw [if_neg (by simp [this, hx])]

/-- The status updates of `Agent.run` preserve the task id. -/
theorem markCompleted_taskId (pr : PipelineResult) (t : TaskInfo) :
    (markCompleted pr t).taskId = t.taskId := rfl

/-- The failed-pipeline update preserves the task id. -/
theorem markFailed_taskId (pr : PipelineResult) (t : TaskInfo) :
    (markFailed pr t).taskId = t.taskId := rfl

/-- The exception update preserves the task id. -/
theorem markException_taskId (msg : String) (t : TaskInfo) :
    (markException msg t).taskId = t.taskId := rfl

/-- The cascading-skip update preserves the task id. -/
theorem markDepFailed_taskId (t : TaskInfo) : (markDepFailed t).taskId = t.taskId := rfl

/-- Running one task never changes the registry entry of another id. -/
theorem runTaskStep_find_other (pf : TaskInfo → Except String PipelineResult)
    (ts : List TaskInfo) (tid : String) {x : String} (hx : x ≠ tid) :
    findTask (runTaskStep pf ts tid).1 x = findTask ts x := by
  unfold runTaskStep
  cases findTask ts tid with
  | none => rfl
  | some task =>
    by_cases hd : depsOk ts task = true
    · simp only [hd, if_true]
      cases pf task with
      | ok pr =>
        by_cases hs : pr.success = true
        · simp only [hs, if_true]
          exact findTask_update_other (markCompleted_taskId pr) ts hx
        · simp only [hs, if_false, Bool.false_eq_true]
          exact findTask_update_other (markFailed_taskId pr) ts hx
      | error msg => exact findTask_update_other (markException_taskId msg) ts hx
    · simp only [hd, if_false, Bool.false_eq_true]
      exact findTask_update_other markDepFailed_taskId ts hx

/-- The execution loop never changes the entry of an id outside the order. -/
theorem execOrderAux_find_notin (pf : TaskInfo → Except String PipelineResult) :
    ∀ (order : List String) (ts : List TaskInfo) (inv : List String) {x : String},
      x ∉ order → findTask (execOrderAux pf ts order inv).1 x = findTask ts x := by
  intro order
  induction order with
  | nil => intro ts inv x _; rfl
  | cons tid rest ih =>
    intro ts inv x hx
    have hx1 : x ≠ tid := fun he => hx (he ▸ List.mem_cons_self tid rest)
    have hx2 : x ∉ rest := fun he => hx (List.mem_cons_of_mem tid he)
    simp only [execOrderAux]
    rw [ih _ _ hx2, runTaskStep_find_other pf ts tid hx1]

/-- Every id the execution loop invokes comes from the accumulator or the
order. -/
theorem execOrderAux_invoked (pf : TaskInfo → Except String PipelineResult) :
    ∀ (order : List String) (ts : List TaskInfo) (inv : List String) {x : String},
      x ∈ (execOrderAux pf ts order inv).2 → x ∈ inv ∨ x ∈ order := by
  intro order
  induction order with
  | nil => intro ts inv x hx; exact Or.inl hx
  | cons tid rest ih =>
    intro ts inv x hx
    simp only [execOrderAux] at hx
    rcases ih _ _ hx with h | h
    · by_cases hinv : (runTaskStep pf ts tid).2 = true
      · rw [if_pos hinv] at h
        rcases List.mem_append.mp h with h' | h'
        · exact Or.inl h'
        · simp at h'
          exact Or.inr (by simp [h'])
      · rw [if_neg hinv] at h
        exact Or.inl h
    · exact Or.inr (List.mem_cons_of_mem tid h)

/-- C4 — at the moment a task of the computed order would start, if its
registered dependencies are not all completed, the scheduler marks it
skipped with the cascading-skip message and never invokes the pipeline
for it.  Confirms the claim. -/
theorem c4_skip_on_failed_dependency (pf : TaskInfo → Except String PipelineResult)
    (ts : List TaskInfo) (tid : String) (rest inv : List String) (t : TaskInfo)
    (hfind : findTask ts tid = some t) (hdeps : depsOk ts t = false)
    (hnr : tid ∉ rest) (hni : tid ∉ inv) :
    findTask (execOrderAux pf ts (tid :: rest) inv).1 tid = some (markDepFailed t) ∧
    (markDepFailed t).status = .skipped ∧
    (markDepFailed t).errorMessage = some "Skipped because a dependency failed" ∧
    tid ∉ (execOrderAux pf ts (tid :: rest) inv).2 := by
  have hstep : runTaskStep pf ts tid = (updateTask ts tid markDepFailed, false) := by
    unfold runTaskStep
    rw [hfind]
    simp only [hdeps, if_false, Bool.false_eq_true]
  have htid := findTask_some_taskId hfind
  refine ⟨?_, rfl, rfl, ?_⟩
  · simp only [execOrderAux, hstep]
    rw [execOrderAux_find_notin pf rest _ _ hnr]
    rw [findTask_update markDepFailed_taskId]
    rw [hfind]
    simp only [Option.map_some']
    rw [if_pos (by simp [htid])]
  · intro hx
    simp only [execOrderAux, hstep] at hx
    rcases execOrderAux_invoked pf rest _ _ hx with h | h
    · simp at h
      exact hni h
    · exact hnr h

/-- A pipeline stub that is never reached in the concrete witnesses. -/
def pfNever : TaskInfo → Except String PipelineResult := fun _ => Except.error "unreachable"

/-- The two-task registry of the C4 witness: `a` already failed, `b`
depends on `a`. -/
def tsC4 : List TaskInfo :=
  [{ taskId := "a", status := .failed }, { taskId := "b", dependencies := ["a"] }]

/-- The dependent task of the C4 witness. -/
def taskB : TaskInfo := { taskId := "b", dependencies := ["a"] }

/-- Witness for C4 at a concrete two-task registry. -/
theorem c4_witness :
    findTask tsC4 "b" = some taskB ∧ depsOk tsC4 taskB = false ∧
    findTask (execOrderAux pfNever tsC4 ["b"] []).1 "b" = some (markDepFailed taskB) ∧
    "b" ∉ (execOrderAux pfNever tsC4 ["b"] []).2 := by
  have h := c4_skip_on_failed_dependency pfNever tsC4 "b" [] [] taskB (by decide)
    (by decide) (by simp) (by simp)
  exact ⟨by decide, by decide, h.1, h.2.2.2⟩

/-! ## Scheduler lemmas: dependency validation -/

/-- The validation fold either leaves the task alone (no missing
dependency) or marks it with the last missing dependency id. -/
theorem valFold (ids : List String) :
    ∀ (ds : List String) (acc : TaskInfo),
      (ds.foldl (fun a d => if ids.contains d then a else markMissing a d) acc = acc ∧
        ∀ d ∈ ds, ids.contains d = true) ∨
      (∃ d ∈ ds, ids.contains d = false ∧
        ds.foldl (fun a d => if ids.contains d then a else markMissing a d) acc =
          markMissing acc d) := by
  intro ds
  induction ds with
  | nil =>
    intro acc
    left
    exact ⟨rfl, by simp⟩
  | cons d ds ih =>
    intro acc
    by_cases hc : ids.contains d = true
    · simp only [List.foldl_cons, if_pos hc]
      rcases ih acc with ⟨he, hall⟩ | ⟨d2, hd2, hf, he⟩
      · left
        refine ⟨he, ?_⟩
        intro e he'
        rcases List.mem_cons.mp he' with h | h
        · rw [h]; exact hc
        · exact hall e h
      · right
        exact ⟨d2, List.mem_cons_of_mem d hd2, hf, he⟩
    · have hc' : ids.contains d = false := by
        cases h : ids.contains d
        · rfl
        · exact absurd h hc
      simp only [List.foldl_cons, if_neg hc]
      rcases ih (markMissing acc d) with ⟨he, _⟩ | ⟨d2, hd2, hf, he⟩
      · right
        exact ⟨d, List.mem_cons_self d ds, hc', he⟩
      · right
        refine ⟨d2, List.mem_cons_of_mem d hd2, hf, ?_⟩
        rw [he, markMissing_comp]

/-- Validation preserves the task id. -/
theorem validateTask_taskId (ids : List String) (t : TaskInfo) :
    (validateTask ids t).taskId = t.taskId := by
  rcases valFold ids t.dependencies t with ⟨he, _⟩ | ⟨d, _, _, he⟩
  · rw [validateTask, he]
  · rw [validateTask, he, markMissing_taskId]

/-- A task with a missing dependency is marked with some missing id. -/
theorem validateTask_missing (ids : List String) (t : TaskInfo)
    (h : ∃ d ∈ t.dependencies, ids.contains d = false) :
    ∃ d ∈ t.dependencies, ids.contains d = false ∧
      validateTask ids t = markMissing t d := by
  rcases valFold ids t.dependencies t with ⟨_, hall⟩ | good
  · obtain ⟨d, hd, hf⟩ := h
    rw [hall d hd] at hf
    cases hf
  · exact good

/-- A task whose dependencies are all registered is left unchanged. -/
theorem validateTask_clean (ids : List String) (t : TaskInfo)
    (h : ∀ d ∈ t.dependencies, ids.contains d = true) : validateTask ids t = t := by
  rcases valFold ids t.dependencies t with ⟨he, _⟩ | ⟨d, hd, hf, _⟩
  · rw [validateTask, he]
  · rw [h d hd] at hf
    cases hf

/-- Validation leaves the key list unchanged. -/
theorem taskIds_validateDeps (ts : List TaskInfo) :
    taskIds (validateDeps ts) = taskIds ts := by
  unfold validateDeps taskIds
  rw [List.map_map]
  exact List.map_congr_left (fun t _ => validateTask_taskId (taskIds ts) t)

/-! ## Scheduler lemmas: queue membership through the Kahn loop -/

/-- Membership in a stable insertion. -/
theorem mem_insertDesc (ts : List TaskInfo) (tid x : String) :
    ∀ q : List String, x ∈ insertDesc ts tid q ↔ x = tid ∨ x ∈ q := by
  intro q
  induction q with
  | nil => simp [insertDesc]
  | cons h r ih =>
    by_cases hc : prioVal ts tid ≤ prioVal ts h
    · simp only [insertDesc, if_pos hc, List.mem_cons, ih]
      tauto
    · simp only [insertDesc, if_neg hc, List.mem_cons]

/-- Membership is invariant under the stable sort. -/
theorem mem_sortDesc (ts : List TaskInfo) (x : String) :
    ∀ q : List String, x ∈ sortDesc ts q ↔ x ∈ q := by
  have aux : ∀ (q acc : List String),
      x ∈ q.foldl (fun a y => insertDesc ts y a) acc ↔ x ∈ acc ∨ x ∈ q := by
    intro q
    induction q with
    | nil => intro acc; simp
    | cons h r ih =>
      intro acc
      simp only [List.foldl_cons, ih, mem_insertDesc, List.mem_cons]
      tauto
  intro q
  rw [sortDesc, aux q []]
  simp

/-- Queue ids added by the dependent-decrement loop are the ids of
non-skipped registered tasks. -/
theorem decrementStep_queue_prop (P : String → Prop) (tid : String) :
    ∀ (ts : List TaskInfo) (deg : String → Int) (q : List String),
      (∀ x ∈ q, P x) → (∀ t ∈ ts, t.status ≠ .skipped → P t.taskId) →
      ∀ x ∈ (decrementStep ts tid deg q).2, P x := by
  intro ts
  induction ts with
  | nil => intro deg q hq _ x hx; exact hq x hx
  | cons t ts' ih =>
    intro deg q hq hts x hx
    rw [decrementStep, List.foldl_cons] at hx
    have hstep : ∀ y ∈ (decStep tid (deg, q) t).2, P y := by
      intro y hy
      unfold decStep at hy
      by_cases hsk : (t.status == TaskStatus.skipped) = true
      · rw [if_pos hsk] at hy
        exact hq y hy
      · rw [if_neg hsk] at hy
        by_cases hdep : t.dependencies.contains tid = true
        · rw [if_pos hdep] at hy
          by_cases hz : (deg t.taskId - 1 == 0) = true
          · simp only [hz, if_true] at hy
            rcases List.mem_append.mp hy with h | h
            · exact hq y h
            · have hy2 : y = t.taskId := by simpa using h
              rw [hy2]
              refine hts t (List.mem_cons_self t ts') ?_
              simpa using hsk
          · simp only [hz, if_false, Bool.false_eq_true] at hy
            exact hq y hy
        · rw [if_neg hdep] at hy
          exact hq y hy
    have hts' : ∀ u ∈ ts', u.status ≠ .skipped → P u.taskId := by
      intro u hu
      exact hts u (List.mem_cons_of_mem t hu)
    have := ih (decStep tid (deg, q) t).1 (decStep tid (deg, q) t).2 hstep hts'
    rw [decrementStep] at this
    exact this x hx

/-- Every id the Kahn loop appends to the order satisfies any property
holding of the queue, the current order, and the non-skipped registered
ids. -/
theorem kahnLoopF_order_prop (ts : List TaskInfo) (P : String → Prop)
    (hts : ∀ t ∈ ts, t.status ≠ .skipped → P t.taskId) :
    ∀ (fuel : Nat) (deg : String → Int) (queue visited order : List String),
      (∀ x ∈ queue, P x) → (∀ x ∈ order, P x) →
      ∀ x ∈ (kahnLoopF ts fuel deg queue visited order).2, P x := by
  intro fuel
  induction fuel with
  | zero => intro deg queue visited order _ ho x hx; exact ho x hx
  | succ n ih =>
    intro deg queue visited order hq ho
    cases queue with
    | nil => exact ho
    | cons tid rest =>
      have hrest : ∀ x ∈ rest, P x := fun x hx => hq x (List.mem_cons_of_mem tid hx)
      by_cases hv : visited.contains tid = true
      · simp only [kahnLoopF, hv, if_true]
        exact ih deg rest visited order hrest ho
      · by_cases hr : (taskIds ts).contains tid = true
        · simp only [kahnLoopF, hv, hr, if_true, if_false, Bool.false_eq_true]
          refine ih _ _ _ _ ?_ ?_
          · intro x hx
            rw [mem_sortDesc] at hx
            exact decrementStep_queue_prop P tid ts deg rest hrest hts x hx
          · intro x hx
            rcases List.mem_append.mp hx with h | h
            · exact ho x h
            · have : x = tid := by simpa using h
              rw [this]
              exact hq tid (List.mem_cons_self tid rest)
        · simp only [kahnLoopF, hv, hr, if_false, Bool.false_eq_true]
          exact ih deg rest visited order hrest ho

/-- Every id of the computed order names a non-skipped registered task. -/
theorem kahnResult_order_prop (ts1 : List TaskInfo) :
    ∀ x ∈ (kahnResult ts1).2, ∃ t ∈ ts1, t.taskId = x ∧ t.status ≠ .skipped := by
  intro x hx
  refine kahnLoopF_order_prop ts1 (fun y => ∃ t ∈ ts1, t.taskId = y ∧ t.status ≠ .skipped)
    ?_ _ _ _ _ _ ?_ ?_ x hx
  · intro t ht hs
    exact ⟨t, ht, rfl, hs⟩
  · intro y hy
    unfold seedQueue at hy
    rw [mem_sortDesc] at hy
    rcases List.mem_map.mp hy with ⟨t, ht, he⟩
    have hf := List.mem_filter.mp ht
    refine ⟨t, hf.1, he, ?_⟩
    have := hf.2
    simp only [Bool.and_eq_true, Bool.not_eq_true'] at this
    simpa using this.2
  · intro y hy
    cases hy

/-- The first component of `resolve_order` is the validated registry. -/
theorem resolve_order_fst (ts : List TaskInfo) :
    (resolve_order ts).1 = validateDeps ts := rfl

/-- A successful `resolve_order` returns the Kahn order. -/
theorem resolve_order_ok {ts : List TaskInfo} {ord : List String}
    (h : (resolve_order ts).2 = Except.ok ord) :
    ord = (kahnResult (validateDeps ts)).2 := by
  unfold resolve_order at h
  simp only [] at h
  split at h
  · cases h
    rfl
  · cases h

/-- C5 — a registered task naming an unknown dependency id is marked
skipped during ordering, before any task executes, with a message naming
a missing id, and the pipeline is never invoked for it; the condition is
handled by marking, not by raising.  Confirms the claim. -/
theorem c5_dangling_dependency_skipped (pf : TaskInfo → Except String PipelineResult)
    (ts : List TaskInfo) (t : TaskInfo) (d : String)
    (hnd : (taskIds ts).Nodup) (ht : t ∈ ts) (hd : d ∈ t.dependencies)
    (hmiss : (taskIds ts).contains d = false) :
    ∃ d2 ∈ t.dependencies, (taskIds ts).contains d2 = false ∧
      findTask (agentRun pf ts).tasks t.taskId = some (markMissing t d2) ∧
      (markMissing t d2).status = .skipped ∧
      (markMissing t d2).errorMessage =
        some ("Dependency " ++ sq ++ d2 ++ sq ++ " not found") ∧
      t.taskId ∉ (agentRun pf ts).invoked := by
  obtain ⟨d2, hd2, hf2, hval⟩ := validateTask_missing (taskIds ts) t ⟨d, hd, hmiss⟩
  have hnd1 : (taskIds (validateDeps ts)).Nodup := by
    rw [taskIds_validateDeps]; exact hnd
  have hmem1 : validateTask (taskIds ts) t ∈ validateDeps ts :=
    List.mem_map_of_mem _ ht
  have hfind1 : findTask (validateDeps ts) t.taskId = some (markMissing t d2) := by
    have hfm := find_of_mem_nodup hnd1 hmem1
    rw [validateTask_taskId] at hfm
    rw [hfm, hval]
  refine ⟨d2, hd2, hf2, ?_⟩
  cases hE : (resolve_order ts).2 with
  | error rem =>
    have hrun : agentRun pf ts =
        { cycleError := some rem, tasks := (resolve_order ts).1, invoked := [] } := by
      unfold agentRun
      simp only []
      rw [hE]
    rw [hrun, resolve_order_fst]
    exact ⟨hfind1, rfl, rfl, by simp⟩
  | ok ord =>
    have hrun : agentRun pf ts =
        { cycleError := none,
          tasks := (execOrderAux pf (resolve_order ts).1 ord []).1,
          invoked := (execOrderAux pf (resolve_order ts).1 ord []).2 } := by
      unfold agentRun
      simp only []
      rw [hE]
    have hord := resolve_order_ok hE
    have hnotin : t.taskId ∉ ord := by
      intro hin
      rw [hord] at hin
      obtain ⟨u, hu, hid, hsk⟩ := kahnResult_order_prop (validateDeps ts) _ hin
      have := find_of_mem_nodup hnd1 hu
      rw [hid, hfind1] at this
      cases this
      exact hsk rfl
    rw [hrun, resolve_order_fst]
    refine ⟨?_, rfl, rfl, ?_⟩
    · rw [execOrderAux_find_notin pf ord _ _ hnotin]
      exact hfind1
    · intro hx
      rcases execOrderAux_invoked pf ord _ _ hx with h | h
      · cases h
      · exact hnotin h

/-- The one-task registry of the C5 witness: its only dependency is
unregistered. -/
def tsC5 : List TaskInfo := [{ taskId := "t1", dependencies := ["missing"] }]

/-- The dangling task of the C5 witness. -/
def taskT1 : TaskInfo := { taskId := "t1", dependencies := ["missing"] }

/-- Witness for C5 at a concrete dangling-dependency registry. -/
theorem c5_witness :
    (taskIds tsC5).Nodup ∧ taskT1 ∈ tsC5 ∧ "missing" ∈ taskT1.dependencies ∧
    (taskIds tsC5).contains "missing" = false ∧
    (∃ d2 ∈ taskT1.dependencies, (taskIds tsC5).contains d2 = false ∧
      findTask (agentRun pfNever tsC5).tasks taskT1.taskId = some (markMissing taskT1 d2) ∧
      (markMissing taskT1 d2).status = .skipped ∧
      (markMissing taskT1 d2).errorMessage =
        some ("Dependency " ++ sq ++ d2 ++ sq ++ " not found") ∧
      taskT1.taskId ∉ (agentRun pfNever tsC5).invoked) := by
  refine ⟨by decide, by decide, by decide, by decide, ?_⟩
  exact c5_dangling_dependency_skipped pfNever tsC5 taskT1 "missing" (by decide)
    (by decide) (by decide) (by decide)

/-! ## Scheduler lemmas: dependency cycles and the in-degree invariant -/

/-- The number of registered dependencies of a task (counted with
multiplicity), the value the in-degree counting loop assigns. -/
def regDepCount (ts1 : List TaskInfo) (t : TaskInfo) : Nat :=
  (t.dependencies.filter (fun d => (taskIds ts1).contains d)).length

/-- One dependency edge among non-skipped tasks: task `a` depends on `b`. -/
def DepStep (ts : List TaskInfo) (a b : String) : Prop :=
  ∃ t ∈ ts, t.taskId = a ∧ t.status ≠ .skipped ∧ b ∈ t.dependencies

/-- `x` lies on a dependency cycle among the non-skipped tasks. -/
def OnCycle (ts : List TaskInfo) (x : String) : Prop :=
  Relation.TransGen (DepStep ts) x x

/-- A nonempty id set in which every member is a non-skipped registered
task with a dependency back into the set.  Every dependency cycle yields
such a set, and no member of such a set can ever be drained by Kahn's
algorithm. -/
def CycleClosed (ts : List TaskInfo) (C : List String) : Prop :=
  ∀ c ∈ C, ∃ t ∈ ts, t.taskId = c ∧ t.status ≠ .skipped ∧
    ∃ d ∈ t.dependencies, d ∈ C

/-- A task on a cycle yields a cycle-closed set containing it. -/
theorem onCycle_closed {ts : List TaskInfo} {x : String} (h : OnCycle ts x) :
    ∃ C : List String, x ∈ C ∧ CycleClosed ts C := by
  have gen : ∀ a b, Relation.TransGen (DepStep ts) a b →
      ∃ C : List String, a ∈ C ∧ ∀ c ∈ C, ∃ t ∈ ts, t.taskId = c ∧
        t.status ≠ .skipped ∧ ∃ d ∈ t.dependencies, d ∈ C ∨ d = b := by
    intro a b hab
    induction hab with
    | single hstep =>
      obtain ⟨t, ht, hid, hsk, hdep⟩ := hstep
      refine ⟨[a], by simp, ?_⟩
      intro c hc
      have hc' : c = a := by simpa using hc
      subst hc'
      exact ⟨t, ht, hid, hsk, _, hdep, Or.inr rfl⟩
    | tail hab hbc ih =>
      obtain ⟨C, haC, hC⟩ := ih
      rename_i b' c'
      obtain ⟨t, ht, hid, hsk, hdep⟩ := hbc
      refine ⟨b' :: C, List.mem_cons_of_mem _ haC, ?_⟩
      intro y hy
      rcases List.mem_cons.mp hy with he | hmem
      · subst he
        exact ⟨t, ht, hid, hsk, _, hdep, Or.inr rfl⟩
      · obtain ⟨u, hu, huid, husk, d, hd, hdc⟩ := hC y hmem
        refine ⟨u, hu, huid, husk, d, hd, ?_⟩
        rcases hdc with h1 | h1
        · exact Or.inl (List.mem_cons_of_mem _ h1)
        · exact Or.inl (h1 ▸ List.mem_cons_self _ _)
  obtain ⟨C, hxC, hC⟩ := gen x x h
  refine ⟨C, hxC, ?_⟩
  intro c hc
  obtain ⟨t, ht, hid, hsk, d, hd, hdc⟩ := hC c hc
  refine ⟨t, ht, hid, hsk, d, hd, ?_⟩
  rcases hdc with h1 | h1
  · exact h1
  · exact h1 ▸ hxC

/-- Updating a table entry yields the new value there. -/
theorem updFn_self (f : String → Int) (k : String) (v : Int) : updFn f k v k = v := by
  simp [updFn]

/-- Updating a table entry preserves every other entry. -/
theorem updFn_other (f : String → Int) (k : String) (v : Int) {x : String}
    (h : x ≠ k) : updFn f k v x = f x := by
  simp [updFn, h]

/-- The per-task counting step only changes the task's own entry. -/
theorem bumpDeps_other (ids : List String) (f : String → Int) (t : TaskInfo)
    {x : String} (h : x ≠ t.taskId) : bumpDeps ids f t x = f x := by
  unfold bumpDeps
  by_cases hs : (t.status == TaskStatus.skipped) = true
  · rw [if_pos hs]
  · rw [if_neg hs]
    generalize f = g
    induction t.dependencies generalizing g with
    | nil => rfl
    | cons d ds ih =>
      rw [List.foldl_cons]
      by_cases hc : ids.contains d = true
      · rw [if_pos hc, ih]
        exact updFn_other _ _ _ h
      · rw [if_neg hc, ih]

/-- The per-task counting step adds the registered-dependency count to
the task's own entry. -/
theorem bumpDeps_self (ids : List String) (f : String → Int) (t : TaskInfo)
    (h : t.status ≠ .skipped) :
    bumpDeps ids f t t.taskId =
      f t.taskId + ((t.dependencies.filter (fun d => ids.contains d)).length : Int) := by
  unfold bumpDeps
  rw [if_neg (by simpa using h)]
  generalize f = g
  induction t.dependencies generalizing g with
  | nil => simp
  | cons d ds ih =>
    rw [List.foldl_cons]
    by_cases hc : ids.contains d = true
    · rw [if_pos hc, ih]
      rw [updFn_self]
      rw [List.filter_cons_of_pos hc]
      rw [List.length_cons]
      push_cast
      ring
    · rw [if_neg hc, ih]
      rw [List.filter_cons_of_neg hc]

/-- The counting step for a skipped task changes nothing. -/
theorem bumpDeps_skipped (ids : List String) (f : String → Int) {t : TaskInfo}
    (h : t.status = .skipped) : bumpDeps ids f t = f := by
  unfold bumpDeps
  rw [if_pos (by simp [h])]

/-- The counting fold leaves entries of ids not named by the folded tasks
unchanged. -/
theorem bumpFold_frame (ids : List String) :
    ∀ (l : List TaskInfo) (f : String → Int) (x : String),
      (∀ u ∈ l, u.taskId ≠ x) → (l.foldl (bumpDeps ids) f) x = f x := by
  intro l
  induction l with
  | nil => intro f x _; rfl
  | cons u us ih =>
    intro f x hx
    rw [List.foldl_cons, ih _ _ (fun v hv => hx v (List.mem_cons_of_mem u hv))]
    exact bumpDeps_other ids f u (fun he => hx u (List.mem_cons_self u us) he.symm)

/-- With distinct ids, the in-degree table assigns a non-skipped task its
registered-dependency count and a skipped task zero. -/
theorem computeInDeg_eq (ts : List TaskInfo) (hnd : (taskIds ts).Nodup)
    {t : TaskInfo} (ht : t ∈ ts) :
    computeInDeg ts t.taskId =
      if t.status = .skipped then 0 else (regDepCount ts t : Int) := by
  obtain ⟨l1, l2, hdec⟩ := List.append_of_mem ht
  have key : ∀ ids : List String, (∀ u ∈ l1, u.taskId ≠ t.taskId) →
      (∀ u ∈ l2, u.taskId ≠ t.taskId) →
      ((l1 ++ t :: l2).foldl (bumpDeps ids) (fun _ => 0)) t.taskId =
        if t.status = .skipped then 0
        else ((t.dependencies.filter (fun d => ids.contains d)).length : Int) := by
    intro ids h1 h2
    rw [List.foldl_append, List.foldl_cons]
    rw [bumpFold_frame ids l2 _ _ h2]
    by_cases hs : t.status = .skipped
    · rw [bumpDeps_skipped ids _ hs, bumpFold_frame ids l1 _ _ h1, if_pos hs]
    · rw [if_neg hs, bumpDeps_self ids _ t hs, bumpFold_frame ids l1 _ _ h1]
      simp
  have hnd' := hnd
  rw [hdec] at hnd'
  have hmap : taskIds (l1 ++ t :: l2) = taskIds l1 ++ t.taskId :: taskIds l2 := by
    simp [taskIds]
  rw [hmap] at hnd'
  rcases List.nodup_append.mp hnd' with ⟨_, hn2, hdisj⟩
  have h1 : ∀ u ∈ l1, u.taskId ≠ t.taskId := by
    intro u hu he
    exact hdisj (List.mem_map_of_mem _ hu) (he ▸ List.mem_cons_self _ _)
  have h2 : ∀ u ∈ l2, u.taskId ≠ t.taskId := by
    intro u hu he
    exact (List.nodup_cons.mp hn2).1 (he ▸ List.mem_map_of_mem _ hu)
  rw [computeInDeg, regDepCount]
  rw [hdec]
  exact key (taskIds (l1 ++ t :: l2)) h1 h2

/-- The decrement step only changes the processed task's own entry. -/
theorem decStep_fst_other (tid : String) (acc : (String → Int) × List String)
    (t : TaskInfo) {x : String} (h : x ≠ t.taskId) :
    (decStep tid acc t).1 x = acc.1 x := by
  unfold decStep
  by_cases hs : (t.status == TaskStatus.skipped) = true
  · rw [if_pos hs]
  · rw [if_neg hs]
    by_cases hc : t.dependencies.contains tid = true
    · rw [if_pos hc]
      exact updFn_other _ _ _ h
    · rw [if_neg hc]

/-- The decrement step on the processed task's own entry. -/
theorem decStep_fst_self (tid : String) (acc : (String → Int) × List String)
    (t : TaskInfo) :
    (decStep tid acc t).1 t.taskId =
      if t.status ≠ .skipped ∧ t.dependencies.contains tid = true
      then acc.1 t.taskId - 1 else acc.1 t.taskId := by
  unfold decStep
  by_cases hs : (t.status == TaskStatus.skipped) = true
  · rw [if_pos hs, if_neg (by simp at hs; simp [hs])]
  · rw [if_neg hs]
    by_cases hc : t.dependencies.contains tid = true
    · rw [if_pos hc]
      simp only [updFn_self]
      rw [if_pos ⟨by simpa using hs, hc⟩]
    · rw [if_neg hc, if_neg (fun hb => hc hb.2)]

/-- The decrement fold leaves entries of unprocessed ids unchanged. -/
theorem decFold_frame (tid : String) :
    ∀ (l : List TaskInfo) (acc : (String → Int) × List String) (x : String),
      (∀ u ∈ l, u.taskId ≠ x) → (l.foldl (decStep tid) acc).1 x = acc.1 x := by
  intro l
  induction l with
  | nil => intro acc x _; rfl
  | cons u us ih =>
    intro acc x hx
    rw [List.foldl_cons, ih _ _ (fun v hv => hx v (List.mem_cons_of_mem u hv))]
    exact decStep_fst_other tid acc u (fun he => hx u (List.mem_cons_self u us) he.symm)

/-- With distinct ids, the dependent-decrement loop decrements exactly the
entries of non-skipped tasks depending on the processed id. -/
theorem decrementStep_deg (ts : List TaskInfo) (hnd : (taskIds ts).Nodup)
    (tid : String) (deg : String → Int) (q : List String) {t : TaskInfo} (ht : t ∈ ts) :
    (decrementStep ts tid deg q).1 t.taskId =
      if t.status ≠ .skipped ∧ t.dependencies.contains tid = true
      then deg t.taskId - 1 else deg t.taskId := by
  obtain ⟨l1, l2, hdec⟩ := List.append_of_mem ht
  have hnd' := hnd
  rw [hdec] at hnd'
  have hmap : taskIds (l1 ++ t :: l2) = taskIds l1 ++ t.taskId :: taskIds l2 := by
    simp [taskIds]
  rw [hmap] at hnd'
  rcases List.nodup_append.mp hnd' with ⟨_, hn2, hdisj⟩
  have h1 : ∀ u ∈ l1, u.taskId ≠ t.taskId := by
    intro u hu he
    exact hdisj (List.mem_map_of_mem _ hu) (he ▸ List.mem_cons_self _ _)
  have h2 : ∀ u ∈ l2, u.taskId ≠ t.taskId := by
    intro u hu he
    exact (List.nodup_cons.mp hn2).1 (he ▸ List.mem_map_of_mem _ hu)
  unfold decrementStep
  rw [hdec, List.foldl_append, List.foldl_cons]
  rw [decFold_frame tid l2 _ _ h2]
  have hacc : (l1.foldl (decStep tid) (deg, q)).1 t.taskId = deg t.taskId :=
    decFold_frame tid l1 _ _ h1
  rw [decStep_fst_self, hacc]

/-- Ids appended to the queue by the decrement loop are non-skipped
dependent tasks whose table value reached zero. -/
theorem decFold_queue (tid : String) (deg : String → Int) :
    ∀ (l : List TaskInfo) (acc : (String → Int) × List String),
      (taskIds l).Nodup →
      (∀ u ∈ l, acc.1 u.taskId = deg u.taskId) →
      ∀ x ∈ (l.foldl (decStep tid) acc).2,
        x ∈ acc.2 ∨ ∃ t ∈ l, t.taskId = x ∧ t.status ≠ .skipped ∧
          t.dependencies.contains tid = true ∧ deg t.taskId - 1 = 0 := by
  intro l
  induction l with
  | nil => intro acc _ _ x hx; exact Or.inl hx
  | cons u us ih =>
    intro acc hnd hfst x hx
    have hmap : taskIds (u :: us) = u.taskId :: taskIds us := rfl
    rw [hmap] at hnd
    rcases List.nodup_cons.mp hnd with ⟨hnu, hnus⟩
    rw [List.foldl_cons] at hx
    have hfst' : ∀ v ∈ us, (decStep tid acc u).1 v.taskId = deg v.taskId := by
      intro v hv
      rw [decStep_fst_other tid acc u
        (fun he => hnu (he ▸ List.mem_map_of_mem _ hv)), hfst v (List.mem_cons_of_mem u hv)]
    rcases ih (decStep tid acc u) hnus hfst' x hx with h | ⟨t, htm, hrest⟩
    · -- x came from the queue after processing u
      unfold decStep at h
      by_cases hs : (u.status == TaskStatus.skipped) = true
      · rw [if_pos hs] at h
        exact Or.inl h
      · rw [if_neg hs] at h
        by_cases hc : u.dependencies.contains tid = true
        · rw [if_pos hc] at h
          by_cases hz : (acc.1 u.taskId - 1 == 0) = true
          · simp only [hz, if_true] at h
            rcases List.mem_append.mp h with h' | h'
            · exact Or.inl h'
            · have hx2 : x = u.taskId := by simpa using h'
              right
              refine ⟨u, List.mem_cons_self u us, hx2.symm, by simpa using hs, hc, ?_⟩
              have := hfst u (List.mem_cons_self u us)
              rw [this] at hz
              simpa using hz
          · simp only [hz, if_false, Bool.false_eq_true] at h
            exact Or.inl h
        · rw [if_neg hc] at h
          exact Or.inl h
    · exact Or.inr ⟨t, List.mem_cons_of_mem u htm, hrest⟩

/-- Queue growth of the decrement loop is bounded by the registry size. -/
theorem decFold_queue_len (tid : String) :
    ∀ (l : List TaskInfo) (acc : (String → Int) × List String),
      (l.foldl (decStep tid) acc).2.length ≤ acc.2.length + l.length := by
  intro l
  induction l with
  | nil => intro acc; simp
  | cons u us ih =>
    intro acc
    rw [List.foldl_cons]
    refine le_trans (ih _) ?_
    have hstep : (decStep tid acc u).2.length ≤ acc.2.length + 1 := by
      unfold decStep
      by_cases hs : (u.status == TaskStatus.skipped) = true
      · rw [if_pos hs]; omega
      · rw [if_neg hs]
        by_cases hc : u.dependencies.contains tid = true
        · rw [if_pos hc]
          by_cases hz : (acc.1 u.taskId - 1 == 0) = true
          · simp only [hz, if_true]
            simp
          · simp only [hz, if_false, Bool.false_eq_true]
            omega
        · rw [if_neg hc]; omega
    simp only [List.length_cons]
    omega

/-- Stable insertion adds exactly one element. -/
theorem length_insertDesc (ts : List TaskInfo) (tid : String) :
    ∀ q : List String, (insertDesc ts tid q).length = q.length + 1 := by
  intro q
  induction q with
  | nil => rfl
  | cons h r ih =>
    by_cases hc : prioVal ts tid ≤ prioVal ts h
    · simp only [insertDesc, if_pos hc, List.length_cons, ih]
    · simp only [insertDesc, if_neg hc, List.length_cons]

/-- The stable sort preserves length. -/
theorem length_sortDesc (ts : List TaskInfo) :
    ∀ q : List String, (sortDesc ts q).length = q.length := by
  have aux : ∀ (q acc : List String),
      (q.foldl (fun a y => insertDesc ts y a) acc).length = acc.length + q.length := by
    intro q
    induction q with
    | nil => intro acc; simp
    | cons h r ih =>
      intro acc
      rw [List.foldl_cons, ih, length_insertDesc]
      simp
      omega
  intro q
  rw [sortDesc, aux q []]
  simp

/-- A filter over a pointwise-stronger condition is no longer. -/
theorem filterImpLen {p q : String → Bool} (himp : ∀ x, p x = true → q x = true) :
    ∀ l : List String, (l.filter p).length ≤ (l.filter q).length := by
  intro l
  induction l with
  | nil => simp
  | cons a l' ih =>
    by_cases hp : p a = true
    · rw [List.filter_cons_of_pos hp, List.filter_cons_of_pos (himp a hp)]
      simpa using ih
    · rw [List.filter_cons_of_neg hp]
      by_cases hq : q a = true
      · rw [List.filter_cons_of_pos hq]
        exact le_trans ih (by simp)
      · rw [List.filter_cons_of_neg hq]
        exact ih

/-- Visiting a yet-unvisited registered id strictly shrinks the
unvisited-count used by the loop measure. -/
theorem unvisited_shrink (visited : List String) (tid : String)
    (hv : visited.contains tid = false) :
    ∀ l : List String, tid ∈ l →
      (l.filter (fun x => !((tid :: visited).contains x))).length + 1 ≤
        (l.filter (fun x => !(visited.contains x))).length := by
  have himp : ∀ x, (!((tid :: visited).contains x)) = true →
      (!(visited.contains x)) = true := by
    intro x hx
    rw [Bool.not_eq_true'] at hx
    rw [Bool.not_eq_true']
    rw [List.contains_cons] at hx
    exact (Bool.or_eq_false_iff.mp hx).2
  intro l
  induction l with
  | nil => intro h; cases h
  | cons a l' ih =>
    intro hmem
    simp only [List.filter_cons]
    by_cases ha : a = tid
    · subst ha
      have hb1 : ((a :: visited).contains a) = true := by
        rw [List.contains_cons]
        simp
      rw [hb1, hv]
      rw [if_neg (by decide), if_pos (by decide)]
      rw [List.length_cons]
      have := filterImpLen himp l'
      omega
    · have hbeq : (a == tid) = false := beq_eq_false_iff_ne.mpr ha
      have hsame : ((tid :: visited).contains a) = visited.contains a := by
        rw [List.contains_cons, hbeq, Bool.false_or]
      have hmem' : tid ∈ l' := by
        rcases List.mem_cons.mp hmem with he | h
        · exact absurd he.symm ha
        · exact h
      rw [hsame]
      cases hca : (visited.contains a) with
      | true =>
        rw [if_neg (by decide), if_neg (by decide)]
        exact ih hmem'
      | false =>
        rw [if_pos (by decide), if_pos (by decide)]
        rw [List.length_cons, List.length_cons]
        have := ih hmem'
        omega

/-- The visited ids intersected with a task's dependencies stay strictly
below the registered-dependency count while some registered dependency is
unvisited. -/
theorem visited_count_lt (ids : List String) (t : TaskInfo) (V : List String)
    (hVnd : V.Nodup) (hVids : ∀ v ∈ V, v ∈ ids) (d0 : String)
    (hd0 : d0 ∈ t.dependencies) (hd0ids : d0 ∈ ids) (hd0V : d0 ∉ V) :
    (V.filter (fun v => t.dependencies.contains v)).length + 1 ≤
      (t.dependencies.filter (fun d => ids.contains d)).length := by
  have hLnd : (V.filter (fun v => t.dependencies.contains v)).Nodup :=
    hVnd.filter _
  have hd0L : d0 ∉ V.filter (fun v => t.dependencies.contains v) :=
    fun h => hd0V (List.mem_of_mem_filter h)
  have hsub : (d0 :: V.filter (fun v => t.dependencies.contains v)) ⊆
      t.dependencies.filter (fun d => ids.contains d) := by
    intro y hy
    rcases List.mem_cons.mp hy with he | hmem
    · subst he
      exact List.mem_filter.mpr ⟨hd0, by simpa using hd0ids⟩
    · rcases List.mem_filter.mp hmem with ⟨hyV, hyd⟩
      refine List.mem_filter.mpr ⟨by simpa using hyd, ?_⟩
      simpa using hVids y hyV
  have hnd2 : (d0 :: V.filter (fun v => t.dependencies.contains v)).Nodup :=
    List.nodup_cons.mpr ⟨hd0L, hLnd⟩
  have := (hnd2.subperm hsub).length_le
  simpa using this

/-- Every member of a cycle-closed set keeps a strictly positive
in-degree entry as long as no member has been visited. -/
theorem cycle_deg_pos (ts1 : List TaskInfo) (C : List String) (hC : CycleClosed ts1 C)
    (V : List String) (hVnd : V.Nodup) (hVids : ∀ v ∈ V, v ∈ taskIds ts1)
    (hVC : ∀ c ∈ C, c ∉ V) (deg : String → Int)
    (hdeg : ∀ t ∈ ts1, t.status ≠ .skipped →
      deg t.taskId = (regDepCount ts1 t : Int) -
        ((V.filter (fun v => t.dependencies.contains v)).length : Int)) :
    ∀ c ∈ C, 1 ≤ deg c := by
  intro c hc
  obtain ⟨t, ht, hid, hsk, d0, hd0, hd0C⟩ := hC c hc
  obtain ⟨t0, ht0, hid0, _, _⟩ := hC d0 hd0C
  have hd0ids : d0 ∈ taskIds ts1 := hid0 ▸ List.mem_map_of_mem _ ht0
  have hkey := visited_count_lt (taskIds ts1) t V hVnd hVids d0 hd0 hd0ids (hVC d0 hd0C)
  have hdt := hdeg t ht hsk
  rw [hid] at hdt
  rw [hdt]
  have hkey' : (V.filter (fun v => t.dependencies.contains v)).length + 1 ≤
      regDepCount ts1 t := hkey
  omega

/-- Skipping an already-visited queue head shrinks the loop measure. -/
theorem kahnMeasure_skip (ts : List TaskInfo) (tid : String)
    (rest visited : List String) :
    kahnMeasure ts rest visited < kahnMeasure ts (tid :: rest) visited := by
  unfold kahnMeasure
  generalize ((taskIds ts).filter (fun x => !(visited.contains x))).length *
    (ts.length + 1) = A
  simp only [List.length_cons]
  omega

/-- Visiting a fresh registered id shrinks the loop measure, however much
the queue grows. -/
theorem kahnMeasure_visit (ts : List TaskInfo) (tid : String)
    (rest visited : List String) (deg : String → Int)
    (hr : (taskIds ts).contains tid = true) (hv : visited.contains tid = false) :
    kahnMeasure ts (sortDesc ts (decrementStep ts tid deg rest).2) (tid :: visited) <
      kahnMeasure ts (tid :: rest) visited := by
  have hmem : tid ∈ taskIds ts := by simpa using hr
  have h1 := unvisited_shrink visited tid hv (taskIds ts) hmem
  have h2 : (sortDesc ts (decrementStep ts tid deg rest).2).length ≤
      rest.length + ts.length := by
    rw [length_sortDesc]
    exact decFold_queue_len tid ts (deg, rest)
  unfold kahnMeasure
  have hmul : (((taskIds ts).filter (fun x => !((tid :: visited).contains x))).length + 1) *
      (ts.length + 1) ≤
      ((taskIds ts).filter (fun x => !(visited.contains x))).length * (ts.length + 1) :=
    Nat.mul_le_mul_right _ h1
  rw [Nat.add_mul, Nat.one_mul] at hmul
  generalize hA : ((taskIds ts).filter (fun x => !((tid :: visited).contains x))).length *
    (ts.length + 1) = A at hmul
  generalize hB : ((taskIds ts).filter (fun x => !(visited.contains x))).length *
    (ts.length + 1) = B at hmul
  simp only [List.length_cons]
  omega

/-- The central Kahn-loop invariant: no member of a cycle-closed set is
ever drained, so each keeps a positive entry in the final in-degree
table. -/
theorem kahnC2 (ts1 : List TaskInfo) (hnd : (taskIds ts1).Nodup)
    (C : List String) (hC : CycleClosed ts1 C) :
    ∀ (fuel : Nat) (deg : String → Int) (queue visited order : List String),
      kahnMeasure ts1 queue visited ≤ fuel →
      (∀ c ∈ C, c ∉ queue) →
      (∀ c ∈ C, c ∉ visited) →
      (∀ t ∈ ts1, t.status ≠ .skipped →
        deg t.taskId = (regDepCount ts1 t : Int) -
          ((visited.filter (fun v => t.dependencies.contains v)).length : Int)) →
      visited.Nodup →
      (∀ v ∈ visited, v ∈ taskIds ts1) →
      ∀ c ∈ C, 1 ≤ (kahnLoopF ts1 fuel deg queue visited order).1 c := by
  intro fuel
  induction fuel with
  | zero =>
    intro deg queue visited order hfuel _ _ _ _ _ c _
    exfalso
    unfold kahnMeasure at hfuel
    generalize ((taskIds ts1).filter (fun x => !(visited.contains x))).length *
      (ts1.length + 1) = A at hfuel
    omega
  | succ n ih =>
    intro deg queue visited order hfuel hIQ hIV hID hIN hII c hc
    cases queue with
    | nil =>
      simp only [kahnLoopF]
      exact cycle_deg_pos ts1 C hC visited hIN hII hIV deg hID c hc
    | cons tid rest =>
      by_cases hv : visited.contains tid = true
      · simp only [kahnLoopF, hv, if_true]
        refine ih deg rest visited order ?_ ?_ hIV hID hIN hII c hc
        · have := kahnMeasure_skip ts1 tid rest visited
          omega
        · intro c0 hc0
          exact fun h => hIQ c0 hc0 (List.mem_cons_of_mem _ h)
      · have hv' : visited.contains tid = false := by simpa using hv
        by_cases hr : (taskIds ts1).contains tid = true
        · have htidC : tid ∉ C := fun h => hIQ tid h (List.mem_cons_self _ _)
          have htidV : tid ∉ visited := by simpa using hv'
          have hID' : ∀ t ∈ ts1, t.status ≠ .skipped →
              (decrementStep ts1 tid deg rest).1 t.taskId =
                (regDepCount ts1 t : Int) -
                  (((tid :: visited).filter
                    (fun v => t.dependencies.contains v)).length : Int) := by
            intro t ht hsk
            rw [decrementStep_deg ts1 hnd tid deg rest ht]
            have hold := hID t ht hsk
            rw [List.filter_cons]
            by_cases hdep : t.dependencies.contains tid = true
            · rw [if_pos ⟨hsk, hdep⟩, hold, if_pos hdep]
              rw [List.length_cons]
              push_cast
              ring
            · have hdep' : ¬ (t.status ≠ TaskStatus.skipped ∧
                  t.dependencies.contains tid = true) := fun hb => hdep hb.2
              rw [if_neg hdep', hold, if_neg hdep]
          have hIV' : ∀ c0 ∈ C, c0 ∉ tid :: visited := by
            intro c0 hc0 hmem
            rcases List.mem_cons.mp hmem with he | hmem'
            · exact htidC (he ▸ hc0)
            · exact hIV c0 hc0 hmem'
          have hIN' : (tid :: visited).Nodup := List.nodup_cons.mpr ⟨htidV, hIN⟩
          have hII' : ∀ v ∈ tid :: visited, v ∈ taskIds ts1 := by
            intro v hmem
            rcases List.mem_cons.mp hmem with he | hmem'
            · exact he ▸ (by simpa using hr)
            · exact hII v hmem'
          have hpos := cycle_deg_pos ts1 C hC (tid :: visited) hIN' hII' hIV'
            (decrementStep ts1 tid deg rest).1 hID'
          have hIQ' : ∀ c0 ∈ C, c0 ∉ sortDesc ts1 (decrementStep ts1 tid deg rest).2 := by
            intro c0 hc0 hmem
            rw [mem_sortDesc] at hmem
            rcases decFold_queue tid deg ts1 (deg, rest) hnd (fun u _ => rfl) c0 hmem
              with h | ⟨t, ht, hid, hsk, hdep, hz⟩
            · exact hIQ c0 hc0 (List.mem_cons_of_mem _ h)
            · have hval : (decrementStep ts1 tid deg rest).1 t.taskId = deg t.taskId - 1 := by
                rw [decrementStep_deg ts1 hnd tid deg rest ht, if_pos ⟨hsk, hdep⟩]
              have h1 := hpos c0 hc0
              rw [← hid] at h1
              rw [hval] at h1
              omega
          simp only [kahnLoopF, hv', Bool.false_eq_true, if_false, hr, if_true]
          refine ih _ _ _ _ ?_ hIQ' hIV' hID' hIN' hII' c hc
          have := kahnMeasure_visit ts1 tid rest visited deg hr hv'
          omega
        · have hr2 : (taskIds ts1).contains tid = false := by simpa using hr
          simp only [kahnLoopF, hv', hr2, Bool.false_eq_true, if_false]
          refine ih deg rest visited order ?_ ?_ hIV hID hIN hII c hc
          · have := kahnMeasure_skip ts1 tid rest visited
            omega
          · intro c0 hc0
            exact fun h => hIQ c0 hc0 (List.mem_cons_of_mem _ h)

/-- C2 amended — whenever some task lies on a dependency cycle among the
non-skipped tasks, `run()` raises the dependency-cycle error before
executing anything: no pipeline invocation happens, the task states stay
as validation left them, and the cycle member is named in the error.
(The error names all non-skipped tasks with unresolved in-degree — a
superset of the cycle members; see the counterexample.) -/
theorem c2_amended (pf : TaskInfo → Except String PipelineResult) (ts : List TaskInfo)
    (x : String) (hnd : (taskIds ts).Nodup) (hcyc : OnCycle (validateDeps ts) x) :
    ∃ L, (agentRun pf ts).cycleError = some L ∧ x ∈ L ∧
      (agentRun pf ts).invoked = [] ∧ (agentRun pf ts).tasks = validateDeps ts := by
  have hnd1 : (taskIds (validateDeps ts)).Nodup := by
    rw [taskIds_validateDeps]
    exact hnd
  obtain ⟨C, hxC, hC⟩ := onCycle_closed hcyc
  have hdeg0 : ∀ t ∈ validateDeps ts, t.status ≠ .skipped →
      computeInDeg (validateDeps ts) t.taskId =
        (regDepCount (validateDeps ts) t : Int) -
          ((([] : List String).filter
            (fun v => t.dependencies.contains v)).length : Int) := by
    intro t ht hsk
    rw [computeInDeg_eq (validateDeps ts) hnd1 ht, if_neg hsk]
    simp
  have hpos0 : ∀ c ∈ C, 1 ≤ computeInDeg (validateDeps ts) c :=
    cycle_deg_pos (validateDeps ts) C hC [] (by simp) (by simp) (by simp) _ hdeg0
  have hIQ0 : ∀ c ∈ C, c ∉ seedQueue (validateDeps ts) (computeInDeg (validateDeps ts)) := by
    intro c hc hmem
    unfold seedQueue at hmem
    rw [mem_sortDesc] at hmem
    rcases List.mem_map.mp hmem with ⟨t, htf, hid⟩
    rcases List.mem_filter.mp htf with ⟨_, hcond⟩
    have h0 : computeInDeg (validateDeps ts) t.taskId = 0 := by
      rw [Bool.and_eq_true] at hcond
      have := hcond.1
      simpa using this
    have h1 := hpos0 c hc
    rw [← hid, h0] at h1
    omega
  have hfinal : 1 ≤ (kahnResult (validateDeps ts)).1 x := by
    unfold kahnResult kahnLoop
    exact kahnC2 (validateDeps ts) hnd1 C hC _ _ _ _ _ (le_refl _) hIQ0 (by simp)
      hdeg0 (by simp) (by simp) x hxC
  obtain ⟨tx, htx, hidx, hskx, _, _, _⟩ := hC x hxC
  have hxrem : x ∈ ((validateDeps ts).filter
      (fun t => decide (0 < (kahnResult (validateDeps ts)).1 t.taskId) &&
        !(t.status == .skipped))).map (fun t => t.taskId) := by
    refine List.mem_map.mpr ⟨tx, List.mem_filter.mpr ⟨htx, ?_⟩, hidx⟩
    rw [Bool.and_eq_true]
    refine ⟨?_, by simpa using hskx⟩
    rw [decide_eq_true_eq, hidx]
    omega
  have hres : (resolve_order ts).2 = Except.error (((validateDeps ts).filter
      (fun t => decide (0 < (kahnResult (validateDeps ts)).1 t.taskId) &&
        !(t.status == .skipped))).map (fun t => t.taskId)) := by
    unfold resolve_order
    simp only []
    rw [if_neg ?_]
    intro hempty
    rw [List.isEmpty_iff] at hempty
    rw [hempty] at hxrem
    cases hxrem
  refine ⟨_, ?_, hxrem, ?_, ?_⟩ <;>
    · unfold agentRun
      simp only []
      rw [hres]
      try rfl

/-- Scenario A of the C2 counterexample: a two-task cycle plus a third
task that merely depends on the cycle. -/
def tsA : List TaskInfo :=
  [{ taskId := "t1", dependencies := ["t2"] },
   { taskId := "t2", dependencies := ["t1"] },
   { taskId := "t3", dependencies := ["t1"] }]

/-- Scenario B of the C2 counterexample: no cycle at all — `t1` has a
dangling dependency (so it is skipped) and `t2` depends on `t1`. -/
def tsB : List TaskInfo :=
  [{ taskId := "t1", dependencies := ["missing"] },
   { taskId := "t2", dependencies := ["t1"] }]

/-- C2 counterexample — the error does not name exactly the cycle
members: in scenario A the error names `t3`, which lies on no cycle; and
in scenario B a cycle error is raised although no cycle exists among the
non-skipped tasks (`t2` merely depends on a skipped task). -/
theorem c2_counterexample :
    (agentRun pfNever tsA).cycleError = some ["t1", "t2", "t3"] ∧
    "t3" ∈ ["t1", "t2", "t3"] ∧ ¬ OnCycle (validateDeps tsA) "t3" ∧
    (agentRun pfNever tsB).cycleError = some ["t2"] ∧
    (∀ y, ¬ OnCycle (validateDeps tsB) y) := by
  have hvalA : validateDeps tsA = tsA := by decide
  refine ⟨by decide, by decide, ?_, by decide, ?_⟩
  · intro h
    have hin : ∀ y, ¬ DepStep (validateDeps tsA) y "t3" := by
      rintro y ⟨t, ht, _, _, hdep⟩
      rw [hvalA] at ht
      simp only [tsA, List.mem_cons, List.not_mem_nil, or_false] at ht
      rcases ht with he | he | he <;>
        · subst he
          exact absurd hdep (by decide)
    cases h with
    | single h1 => exact hin _ h1
    | tail h1 h2 => exact hin _ h2
  · intro y h
    have hstep : ∀ a b, DepStep (validateDeps tsB) a b → a = "t2" ∧ b = "t1" := by
      rintro a b ⟨t, ht, hid, hsk, hdep⟩
      have hvalB : validateDeps tsB =
          [markMissing { taskId := "t1", dependencies := ["missing"] } "missing",
           { taskId := "t2", dependencies := ["t1"] }] := by decide
      rw [hvalB] at ht
      simp only [List.mem_cons, List.not_mem_nil, or_false] at ht
      rcases ht with he | he
      · subst he
        exact absurd rfl hsk
      · subst he
        refine ⟨hid.symm, ?_⟩
        have : b ∈ ["t1"] := hdep
        simpa using this
    have hall : ∀ a b, Relation.TransGen (DepStep (validateDeps tsB)) a b →
        a = "t2" ∧ b = "t1" := by
      intro a b hab
      induction hab with
      | single h1 => exact hstep _ _ h1
      | tail h1 h2 ih =>
        rcases ih with ⟨ha, hb⟩
        rcases hstep _ _ h2 with ⟨hb2, hc⟩
        exfalso
        have : ("t1" : String) = "t2" := by rw [← hb, hb2]
        exact absurd this (by decide)
    rcases hall y y h with ⟨h1, h2⟩
    rw [h1] at h2
    exact absurd h2 (by decide)

/-- The self-loop registry of the C2 witness. -/
def tsW : List TaskInfo := [{ taskId := "w", dependencies := ["w"] }]

/-- Witness for C2 amended at the concrete self-loop registry. -/
theorem c2_witness :
    (taskIds tsW).Nodup ∧ OnCycle (validateDeps tsW) "w" ∧
    ∃ L, (agentRun pfNever tsW).cycleError = some L ∧ "w" ∈ L ∧
      (agentRun pfNever tsW).invoked = [] ∧
      (agentRun pfNever tsW).tasks = validateDeps tsW := by
  have hstep : DepStep (validateDeps tsW) "w" "w" := by
    refine ⟨{ taskId := "w", dependencies := ["w"] }, by decide, rfl, by decide, by decide⟩
  exact ⟨by decide, Relation.TransGen.single hstep,
    c2_amended pfNever tsW "w" (by decide) (Relation.TransGen.single hstep)⟩

/-! ## Scheduler lemmas: stability of the priority sort -/

/-- The descending priority ordering used by the queue sort. -/
def prioGE (ts : List TaskInfo) (a b : String) : Prop :=
  prioVal ts b ≤ prioVal ts a

/-- Insertion permutes: the result is the new id plus the old queue. -/
theorem perm_insertDesc (ts : List TaskInfo) (tid : String) :
    ∀ q : List String, List.Perm (insertDesc ts tid q) (tid :: q) := by
  intro q
  induction q with
  | nil => exact List.Perm.refl _
  | cons h r ih =>
    by_cases hc : prioVal ts tid ≤ prioVal ts h
    · simp only [insertDesc, if_pos hc]
      exact (ih.cons h).trans (List.Perm.swap tid h r)
    · simp only [insertDesc, if_neg hc]
      exact List.Perm.refl _

/-- The stable sort permutes the queue. -/
theorem perm_sortDesc (ts : List TaskInfo) :
    ∀ q : List String, List.Perm (sortDesc ts q) q := by
  have aux : ∀ (q acc : List String),
      List.Perm (q.foldl (fun a y => insertDesc ts y a) acc) (q ++ acc) := by
    intro q
    induction q with
    | nil => intro acc; exact List.Perm.refl _
    | cons h r ih =>
      intro acc
      rw [List.foldl_cons]
      refine (ih _).trans ?_
      refine ((perm_insertDesc ts h acc).append_left r).trans ?_
      exact List.perm_middle
  intro q
  have := aux q []
  simpa using this

/-- Counts are preserved by the stable sort. -/
theorem count_sortDesc (ts : List TaskInfo) (q : List String) (x : String) :
    (sortDesc ts q).count x = q.count x :=
  (perm_sortDesc ts q).count_eq x

/-- Insertion preserves descending pairwise order. -/
theorem pairwise_insertDesc (ts : List TaskInfo) (tid : String) :
    ∀ q : List String, q.Pairwise (prioGE ts) →
      (insertDesc ts tid q).Pairwise (prioGE ts) := by
  intro q
  induction q with
  | nil => intro _; simp [insertDesc, List.pairwise_cons]
  | cons h r ih =>
    intro hp
    rcases List.pairwise_cons.mp hp with ⟨hh, hr⟩
    by_cases hc : prioVal ts tid ≤ prioVal ts h
    · simp only [insertDesc, if_pos hc]
      refine List.pairwise_cons.mpr ⟨?_, ih hr⟩
      intro y hy
      rcases (mem_insertDesc ts tid y r).mp hy with he | hmem
      · exact he ▸ hc
      · exact hh y hmem
    · simp only [insertDesc, if_neg hc]
      refine List.pairwise_cons.mpr ⟨?_, hp⟩
      intro y hy
      rcases List.mem_cons.mp hy with he | hmem
      · exact he ▸ le_of_not_le hc
      · exact le_trans (hh y hmem) (le_of_not_le hc)

/-- The stable sort output is pairwise descending. -/
theorem pairwise_sortDesc (ts : List TaskInfo) :
    ∀ q : List String, (sortDesc ts q).Pairwise (prioGE ts) := by
  have aux : ∀ (q acc : List String), acc.Pairwise (prioGE ts) →
      (q.foldl (fun a y => insertDesc ts y a) acc).Pairwise (prioGE ts) := by
    intro q
    induction q with
    | nil => intro acc h; exact h
    | cons h r ih =>
      intro acc hacc
      rw [List.foldl_cons]
      exact ih _ (pairwise_insertDesc ts h acc hacc)
  intro q
  exact aux q [] (by simp)

/-- Insertion is a splice: some split of the queue receives the new id. -/
theorem insertDesc_splice (ts : List TaskInfo) (tid : String) :
    ∀ q : List String, ∃ u v, q = u ++ v ∧ insertDesc ts tid q = u ++ tid :: v := by
  intro q
  induction q with
  | nil => exact ⟨[], [], rfl, rfl⟩
  | cons h r ih =>
    by_cases hc : prioVal ts tid ≤ prioVal ts h
    · obtain ⟨u, v, he, hi⟩ := ih
      refine ⟨h :: u, v, by rw [he]; rfl, ?_⟩
      simp only [insertDesc, if_pos hc, hi]
      rfl
    · exact ⟨[], h :: r, rfl, by simp [insertDesc, if_neg hc]⟩

/-- Insertion preserves sublists of the queue. -/
theorem sublist_insertDesc (ts : List TaskInfo) (tid : String) (q S : List String)
    (h : List.Sublist S q) : List.Sublist S (insertDesc ts tid q) := by
  obtain ⟨u, v, he, hi⟩ := insertDesc_splice ts tid q
  rw [hi]
  rw [he] at h
  refine h.trans ?_
  exact (List.Sublist.cons tid (List.Sublist.refl v)).append_left u

/-- Into a pairwise-descending queue containing `a`, inserting an id of
no higher priority lands after `a`. -/
theorem insertDesc_after (ts : List TaskInfo) (b : String) :
    ∀ q : List String, q.Pairwise (prioGE ts) → ∀ a ∈ q,
      prioVal ts b ≤ prioVal ts a →
      List.Sublist [a, b] (insertDesc ts b q) := by
  intro q
  induction q with
  | nil => intro _ a ha; cases ha
  | cons h r ih =>
    intro hp a ha hab
    rcases List.pairwise_cons.mp hp with ⟨hh, hr⟩
    by_cases hc : prioVal ts b ≤ prioVal ts h
    · simp only [insertDesc, if_pos hc]
      rcases List.mem_cons.mp ha with he | hmem
      · subst he
        refine List.Sublist.cons₂ a ?_
        exact List.singleton_sublist.mpr ((mem_insertDesc ts b b r).mpr (Or.inl rfl))
      · exact List.Sublist.cons h (ih hr a hmem hab)
    · exfalso
      rcases List.mem_cons.mp ha with he | hmem
      · subst he
        exact hc hab
      · exact hc (le_trans hab (hh a hmem))

/-- Pair-sublists of the accumulator survive the whole insertion fold. -/
theorem sublist_sortFold (ts : List TaskInfo) :
    ∀ (q acc S : List String), List.Sublist S acc →
      List.Sublist S (q.foldl (fun a y => insertDesc ts y a) acc) := by
  intro q
  induction q with
  | nil => intro acc S h; exact h
  | cons h r ih =>
    intro acc S hS
    rw [List.foldl_cons]
    exact ih _ S (sublist_insertDesc ts h acc S hS)

/-- Membership in the accumulator survives the insertion fold. -/
theorem mem_sortFold (ts : List TaskInfo) (q acc : List String) (a : String)
    (h : a ∈ acc) : a ∈ q.foldl (fun a y => insertDesc ts y a) acc := by
  have := sublist_sortFold ts q acc [a] (List.singleton_sublist.mpr h)
  exact List.singleton_sublist.mp this

/-- The accumulator stays pairwise descending through the fold. -/
theorem pairwise_sortFold (ts : List TaskInfo) :
    ∀ (q acc : List String), acc.Pairwise (prioGE ts) →
      (q.foldl (fun a y => insertDesc ts y a) acc).Pairwise (prioGE ts) := by
  intro q
  induction q with
  | nil => intro acc h; exact h
  | cons h r ih =>
    intro acc hacc
    rw [List.foldl_cons]
    exact ih _ (pairwise_insertDesc ts h acc hacc)

/-- An ordered pair occurring in a list can be split out. -/
theorem pair_sublist_decomp {a b : String} :
    ∀ l : List String, List.Sublist [a, b] l →
      ∃ u v w, l = u ++ a :: v ++ b :: w := by
  intro l
  induction l with
  | nil => intro h; cases h
  | cons c l' ih =>
    intro h
    cases h with
    | cons _ h2 =>
      obtain ⟨u, v, w, he⟩ := ih h2
      exact ⟨c :: u, v, w, by rw [he]; rfl⟩
    | cons₂ h2 =>
      rename_i h3
      obtain ⟨v, w, he⟩ := List.append_of_mem (List.singleton_sublist.mp h3)
      exact ⟨[], v, w, by rw [he]; rfl⟩


/-- Stability: a pair already in queue order, with the left member of at
least the right member's priority, stays in that order through the sort. -/
theorem sortDesc_stable (ts : List TaskInfo) (a b : String)
    (hab : prioVal ts b ≤ prioVal ts a) :
    ∀ q : List String, List.Sublist [a, b] q →
      List.Sublist [a, b] (sortDesc ts q) := by
  intro q hq
  obtain ⟨u, v, w, he⟩ := pair_sublist_decomp q hq
  rw [sortDesc, he, List.foldl_append, List.foldl_append, List.foldl_cons,
    List.foldl_cons]
  have hp2 : (v.foldl (fun acc x => insertDesc ts x acc)
      (insertDesc ts a (u.foldl (fun acc x => insertDesc ts x acc) []))).Pairwise
        (prioGE ts) :=
    pairwise_sortFold ts v _ (pairwise_insertDesc ts a _
      (pairwise_sortFold ts u [] (by simp)))
  have h2 : a ∈ v.foldl (fun acc x => insertDesc ts x acc)
      (insertDesc ts a (u.foldl (fun acc x => insertDesc ts x acc) [])) :=
    mem_sortFold ts v _ a ((mem_insertDesc ts a a _).mpr (Or.inl rfl))
  exact sublist_sortFold ts w _ _ (insertDesc_after ts b _ hp2 a h2 hab)

/-- Two distinct members of any list occur in one order or the other. -/
theorem mem_mem_sublist_or {a b : String} (hne : a ≠ b) :
    ∀ l : List String, a ∈ l → b ∈ l →
      List.Sublist [a, b] l ∨ List.Sublist [b, a] l := by
  intro l
  induction l with
  | nil => intro ha; cases ha
  | cons c l' ih =>
    intro ha hb
    rcases List.mem_cons.mp ha with hea | hma
    · subst hea
      have hbl : b ∈ l' := by
        rcases List.mem_cons.mp hb with heb | hmb
        · exact absurd heb.symm hne
        · exact hmb
      exact Or.inl (List.Sublist.cons₂ a (List.singleton_sublist.mpr hbl))
    · rcases List.mem_cons.mp hb with heb | hmb
      · subst heb
        exact Or.inr (List.Sublist.cons₂ b (List.singleton_sublist.mpr hma))
      · rcases ih hma hmb with h | h
        · exact Or.inl (List.Sublist.cons c h)
        · exact Or.inr (List.Sublist.cons c h)

/-- The decrement step appends at most the processed task's id. -/
theorem decStep_queue_ext (tid : String) (acc : (String → Int) × List String)
    (t : TaskInfo) :
    (decStep tid acc t).2 = acc.2 ∨
      ((decStep tid acc t).2 = acc.2 ++ [t.taskId] ∧ t.status ≠ .skipped ∧
        t.dependencies.contains tid = true) := by
  unfold decStep
  by_cases hs : (t.status == TaskStatus.skipped) = true
  · rw [if_pos hs]
    exact Or.inl rfl
  · rw [if_neg hs]
    by_cases hc : t.dependencies.contains tid = true
    · rw [if_pos hc]
      by_cases hz : (acc.1 t.taskId - 1 == 0) = true
      · simp only [hz, if_true]
        exact Or.inr ⟨trivial, by simpa using hs, hc⟩
      · simp only [hz, if_false, Bool.false_eq_true]
        exact Or.inl trivial
    · rw [if_neg hc]
      exact Or.inl rfl

/-- The queue before the decrement loop is a sublist of the queue after. -/
theorem decFold_queue_pre (tid : String) :
    ∀ (l : List TaskInfo) (acc : (String → Int) × List String),
      List.Sublist acc.2 ((l.foldl (decStep tid) acc).2) := by
  intro l
  induction l with
  | nil => intro acc; exact List.Sublist.refl _
  | cons t l' ih =>
    intro acc
    rw [List.foldl_cons]
    refine List.Sublist.trans ?_ (ih _)
    rcases decStep_queue_ext tid acc t with he | ⟨he, _, _⟩
    · rw [he]
    · rw [he]
      exact List.sublist_append_left _ _

/-- Counts of never-appended ids pass through the decrement loop. -/
theorem decFold_count (tid x : String) :
    ∀ (l : List TaskInfo) (acc : (String → Int) × List String),
      (∀ t ∈ l, t.taskId = x → t.dependencies.contains tid = false) →
      ((l.foldl (decStep tid) acc).2).count x = acc.2.count x := by
  intro l
  induction l with
  | nil => intro acc _; rfl
  | cons t l' ih =>
    intro acc hna
    rw [List.foldl_cons]
    rw [ih _ (fun u hu => hna u (List.mem_cons_of_mem t hu))]
    rcases decStep_queue_ext tid acc t with he | ⟨he, _, hc⟩
    · rw [he]
    · rw [he, List.count_append]
      have hx : t.taskId ≠ x := by
        intro hb
        rw [hna t (List.mem_cons_self t l') hb] at hc
        cases hc
      simp [List.count_singleton', hx]

/-- One unfolding step for an ordered pair at a cons queue. -/
theorem pair_sublist_cons_elim {a b c : String} {rest : List String}
    (h : List.Sublist [a, b] (c :: rest)) :
    (c = a ∧ List.Sublist [b] rest) ∨ List.Sublist [a, b] rest := by
  cases h with
  | cons _ h2 => exact Or.inr h2
  | cons₂ h2 =>
    rename_i h3
    exact Or.inl ⟨rfl, h3⟩

/-- Appending the partner to a list containing the leader yields the pair. -/
theorem pair_append_right {a b : String} {l : List String} (h : a ∈ l) :
    List.Sublist [a, b] (l ++ [b]) :=
  List.Sublist.append (List.singleton_sublist.mpr h) (List.Sublist.refl [b])

/-- The loop invariant for the priority-order claim: the pair is still
ahead in the queue, or the leader is already ordered and the partner
queued, or both are ordered in the right relative position. -/
def c6Inv (id1 id2 : String) (queue visited order : List String) : Prop :=
  (List.Sublist [id1, id2] queue ∧ id1 ∉ visited ∧ id2 ∉ visited ∧
    queue.count id1 ≤ 1 ∧ queue.count id2 ≤ 1) ∨
  (id1 ∈ order ∧ id2 ∈ queue ∧ id2 ∉ visited ∧ queue.count id2 ≤ 1) ∨
  List.Sublist [id1, id2] order

/-- The Kahn loop keeps the priority pair in relative order. -/
theorem kahnC6 (ts1 : List TaskInfo) (id1 id2 : String) (hne : id1 ≠ id2)
    (hr1 : (taskIds ts1).contains id1 = true) (hr2 : (taskIds ts1).contains id2 = true)
    (hprio : prioVal ts1 id2 ≤ prioVal ts1 id1)
    (hnodep : ∀ t ∈ ts1, (t.taskId = id1 ∨ t.taskId = id2) → t.dependencies = []) :
    ∀ (fuel : Nat) (deg : String → Int) (queue visited order : List String),
      kahnMeasure ts1 queue visited ≤ fuel →
      c6Inv id1 id2 queue visited order →
      List.Sublist [id1, id2] (kahnLoopF ts1 fuel deg queue visited order).2 := by
  have hcount1 : ∀ (deg : String → Int) (rest : List String),
      ((decrementStep ts1 id1 deg rest).2).count id1 = rest.count id1 ∧
      ∀ tid, ((decrementStep ts1 tid deg rest).2).count id1 = rest.count id1 := by
    intro deg rest
    constructor
    · exact decFold_count id1 id1 ts1 (deg, rest)
        (fun t ht hb => by rw [hnodep t ht (Or.inl hb)]; rfl)
    · intro tid
      exact decFold_count tid id1 ts1 (deg, rest)
        (fun t ht hb => by rw [hnodep t ht (Or.inl hb)]; rfl)
  have hcount2 : ∀ (tid : String) (deg : String → Int) (rest : List String),
      ((decrementStep ts1 tid deg rest).2).count id2 = rest.count id2 := by
    intro tid deg rest
    exact decFold_count tid id2 ts1 (deg, rest)
      (fun t ht hb => by rw [hnodep t ht (Or.inr hb)]; rfl)
  intro fuel
  induction fuel with
  | zero =>
    intro deg queue visited order hfuel _
    exfalso
    unfold kahnMeasure at hfuel
    generalize ((taskIds ts1).filter (fun x => !(visited.contains x))).length *
      (ts1.length + 1) = A at hfuel
    omega
  | succ n ih =>
    intro deg queue visited order hfuel hInv
    cases queue with
    | nil =>
      simp only [kahnLoopF]
      rcases hInv with ⟨h1, _⟩ | ⟨_, h2, _⟩ | h3
      · rw [List.sublist_nil] at h1
        cases h1
      · cases h2
      · exact h3
    | cons tid rest =>
      have hrest_count : ∀ x, rest.count x ≤ (tid :: rest).count x := by
        intro x
        rw [List.count_cons]
        omega
      by_cases hv : visited.contains tid = true
      · -- already visited: pop and continue
        have hvmem : tid ∈ visited := by simpa using hv
        simp only [kahnLoopF, hv, if_true]
        refine ih deg rest visited order ?_ ?_
        · have := kahnMeasure_skip ts1 tid rest visited
          omega
        · rcases hInv with ⟨hsub, h1v, h2v, hc1, hc2⟩ | ⟨ho1, hq2, h2v, hc2⟩ | h3
          · rcases pair_sublist_cons_elim hsub with ⟨he, _⟩ | hsub'
            · exact absurd (he ▸ hvmem) h1v
            · exact Or.inl ⟨hsub', h1v, h2v,
                le_trans (hrest_count id1) hc1, le_trans (hrest_count id2) hc2⟩
          · have htid2 : tid ≠ id2 := fun he => h2v (he ▸ hvmem)
            have hq2' : id2 ∈ rest := by
              rcases List.mem_cons.mp hq2 with he | h
              · exact absurd he.symm htid2
              · exact h
            exact Or.inr (Or.inl ⟨ho1, hq2', h2v, le_trans (hrest_count id2) hc2⟩)
          · exact Or.inr (Or.inr h3)
      · have hv' : visited.contains tid = false := by simpa using hv
        by_cases hr : (taskIds ts1).contains tid = true
        · -- visit tid
          simp only [kahnLoopF, hv', Bool.false_eq_true, if_false, hr, if_true]
          have hmemQ0 : ∀ y ∈ rest, y ∈ (decrementStep ts1 tid deg rest).2 :=
            fun y hy => (decFold_queue_pre tid ts1 (deg, rest)).subset hy
          refine ih _ _ _ _ ?_ ?_
          · have := kahnMeasure_visit ts1 tid rest visited deg hr hv'
            omega
          · rcases hInv with ⟨hsub, h1v, h2v, hc1, hc2⟩ | ⟨ho1, hq2, h2v, hc2⟩ | h3
            · rcases pair_sublist_cons_elim hsub with ⟨he, hb⟩ | hsub'
              · -- tid is the leader: it moves to the order
                subst he
                refine Or.inr (Or.inl ⟨by simp, ?_, ?_, ?_⟩)
                · rw [mem_sortDesc]
                  exact hmemQ0 id2 (List.singleton_sublist.mp hb)
                · intro hmem
                  rcases List.mem_cons.mp hmem with he2 | hm
                  · exact hne he2.symm
                  · exact h2v hm
                · rw [count_sortDesc, hcount2 tid deg rest]
                  have : (tid :: rest).count id2 = rest.count id2 := by
                    rw [List.count_cons]
                    have : (tid == id2) = false := beq_eq_false_iff_ne.mpr hne
                    simp [this]
                  omega
              · -- the head is neither pair member
                have htid1 : tid ≠ id1 := by
                  intro he
                  have hmem : id1 ∈ rest := by
                    have := hsub'.subset
                    exact this (by simp)
                  have : 1 ≤ rest.count id1 := List.one_le_count_iff.mpr hmem
                  rw [he] at hc1
                  rw [List.count_cons] at hc1
                  simp at hc1
                  omega
                have htid2 : tid ≠ id2 := by
                  intro he
                  have hmem : id2 ∈ rest := by
                    have := hsub'.subset
                    exact this (by simp)
                  have : 1 ≤ rest.count id2 := List.one_le_count_iff.mpr hmem
                  rw [he] at hc2
                  rw [List.count_cons] at hc2
                  simp at hc2
                  omega
                refine Or.inl ⟨?_, ?_, ?_, ?_, ?_⟩
                · refine sortDesc_stable ts1 id1 id2 hprio _ ?_
                  exact hsub'.trans (decFold_queue_pre tid ts1 (deg, rest))
                · intro hmem
                  rcases List.mem_cons.mp hmem with he | hm
                  · exact htid1 he.symm
                  · exact h1v hm
                · intro hmem
                  rcases List.mem_cons.mp hmem with he | hm
                  · exact htid2 he.symm
                  · exact h2v hm
                · rw [count_sortDesc, (hcount1 deg rest).2 tid]
                  exact le_trans (hrest_count id1) hc1
                · rw [count_sortDesc, hcount2 tid deg rest]
                  exact le_trans (hrest_count id2) hc2
            · by_cases htid : tid = id2
              · -- the partner is visited: both are now ordered
                subst htid
                exact Or.inr (Or.inr (pair_append_right ho1))
              · have hq2' : id2 ∈ rest := by
                  rcases List.mem_cons.mp hq2 with he | h
                  · exact absurd he.symm htid
                  · exact h
                refine Or.inr (Or.inl ⟨List.mem_append_left _ ho1, ?_, ?_, ?_⟩)
                · rw [mem_sortDesc]
                  exact hmemQ0 id2 hq2'
                · intro hmem
                  rcases List.mem_cons.mp hmem with he | hm
                  · exact htid he.symm
                  · exact h2v hm
                · rw [count_sortDesc, hcount2 tid deg rest]
                  exact le_trans (hrest_count id2) hc2
            · exact Or.inr (Or.inr (h3.trans (List.sublist_append_left _ _)))
        · -- unregistered id: pop and continue
          have hr2' : (taskIds ts1).contains tid = false := by simpa using hr
          have htid1 : tid ≠ id1 := fun he => by rw [he, hr1] at hr2'; cases hr2'
          have htid2 : tid ≠ id2 := fun he => by rw [he, hr2] at hr2'; cases hr2'
          simp only [kahnLoopF, hv', hr2', Bool.false_eq_true, if_false]
          refine ih deg rest visited order ?_ ?_
          · have := kahnMeasure_skip ts1 tid rest visited
            omega
          · rcases hInv with ⟨hsub, h1v, h2v, hc1, hc2⟩ | ⟨ho1, hq2, h2v, hc2⟩ | h3
            · rcases pair_sublist_cons_elim hsub with ⟨he, _⟩ | hsub'
              · exact absurd he htid1
              · exact Or.inl ⟨hsub', h1v, h2v,
                  le_trans (hrest_count id1) hc1, le_trans (hrest_count id2) hc2⟩
            · have hq2' : id2 ∈ rest := by
                rcases List.mem_cons.mp hq2 with he | h
                · exact absurd he.symm htid2
                · exact h
              exact Or.inr (Or.inl ⟨ho1, hq2', h2v, le_trans (hrest_count id2) hc2⟩)
            · exact Or.inr (Or.inr h3)

/-- The seed list of `_resolve_order` before the priority sort: the keys
of in-degree zero whose task is not skipped, in insertion order. -/
def seedPre (ts1 : List TaskInfo) : List String :=
  (ts1.filter (fun t => computeInDeg ts1 t.taskId == 0 && !(t.status == .skipped))).map
    (fun t => t.taskId)

/-- The seed queue is the stable descending sort of the seed list. -/
theorem seedQueue_eq (ts1 : List TaskInfo) :
    seedQueue ts1 (computeInDeg ts1) = sortDesc ts1 (seedPre ts1) := rfl

/-- An ordered pair inside a pairwise-ordered list is related. -/
theorem pairwise_of_pair_sublist {R : String → String → Prop} :
    ∀ {l : List String} {a b : String}, l.Pairwise R → List.Sublist [a, b] l → R a b := by
  intro l
  induction l with
  | nil =>
    intro a b _ h
    rw [List.sublist_nil] at h
    cases h
  | cons c l2 ih =>
    intro a b hpw hsub
    rcases pair_sublist_cons_elim hsub with ⟨he, hb⟩ | hsub2
    · subst he
      exact (List.pairwise_cons.mp hpw).1 b (List.singleton_sublist.mp hb)
    · exact ih (List.pairwise_cons.mp hpw).2 hsub2

/-- C6: for every pair of registered tasks with empty dependency lists
(and pending status), if the first has strictly higher priority, or equal
priority and earlier insertion position, then the first precedes the
second in the execution order computed by `_resolve_order`. -/
theorem c6_priority_order (ts : List TaskInfo) (t1 t2 : TaskInfo) (ord : List String)
    (hnd : (taskIds ts).Nodup)
    (h1 : t1 ∈ ts) (h2 : t2 ∈ ts)
    (hd1 : t1.dependencies = []) (hd2 : t2.dependencies = [])
    (hs1 : t1.status = .pending) (hs2 : t2.status = .pending)
    (hne : t1.taskId ≠ t2.taskId)
    (hprio : t2.priority.value < t1.priority.value ∨
      (t2.priority.value = t1.priority.value ∧ List.Sublist [t1, t2] ts))
    (hok : (resolve_order ts).2 = Except.ok ord) :
    List.Sublist [t1.taskId, t2.taskId] ord := by
  have hord := resolve_order_ok hok
  have vt1 : validateTask (taskIds ts) t1 = t1 :=
    validateTask_clean _ _ (by intro d hd; rw [hd1] at hd; cases hd)
  have vt2 : validateTask (taskIds ts) t2 = t2 :=
    validateTask_clean _ _ (by intro d hd; rw [hd2] at hd; cases hd)
  have h1v : t1 ∈ validateDeps ts := by
    unfold validateDeps
    rw [← vt1]
    exact List.mem_map.mpr ⟨t1, h1, rfl⟩
  have h2v : t2 ∈ validateDeps ts := by
    unfold validateDeps
    rw [← vt2]
    exact List.mem_map.mpr ⟨t2, h2, rfl⟩
  have hndv : (taskIds (validateDeps ts)).Nodup := by
    rw [taskIds_validateDeps]
    exact hnd
  have hm1 : t1.taskId ∈ taskIds (validateDeps ts) :=
    List.mem_map.mpr ⟨t1, h1v, rfl⟩
  have hm2 : t2.taskId ∈ taskIds (validateDeps ts) :=
    List.mem_map.mpr ⟨t2, h2v, rfl⟩
  have hr1 : (taskIds (validateDeps ts)).contains t1.taskId = true := by simpa using hm1
  have hr2 : (taskIds (validateDeps ts)).contains t2.taskId = true := by simpa using hm2
  have huniq : ∀ u ∈ validateDeps ts, ∀ w ∈ validateDeps ts, u.taskId = w.taskId → u = w := by
    intro u hu w hw he
    have h1f := find_of_mem_nodup hndv hu
    have h2f := find_of_mem_nodup hndv hw
    rw [he] at h1f
    rw [h1f] at h2f
    exact Option.some.inj h2f
  have hnodep : ∀ t ∈ validateDeps ts,
      (t.taskId = t1.taskId ∨ t.taskId = t2.taskId) → t.dependencies = [] := by
    intro t ht hc
    rcases hc with hc | hc
    · rw [huniq t ht t1 h1v hc]
      exact hd1
    · rw [huniq t ht t2 h2v hc]
      exact hd2
  have hp1 : prioVal (validateDeps ts) t1.taskId = t1.priority.value := by
    unfold prioVal
    rw [find_of_mem_nodup hndv h1v]
  have hp2 : prioVal (validateDeps ts) t2.taskId = t2.priority.value := by
    unfold prioVal
    rw [find_of_mem_nodup hndv h2v]
  have hge : prioVal (validateDeps ts) t2.taskId ≤ prioVal (validateDeps ts) t1.taskId := by
    rw [hp1, hp2]
    rcases hprio with h | ⟨h, _⟩
    · exact le_of_lt h
    · exact le_of_eq h
  have hdeg1 : computeInDeg (validateDeps ts) t1.taskId = 0 := by
    rw [computeInDeg_eq (validateDeps ts) hndv h1v,
      if_neg (by rw [hs1]; decide)]
    simp [regDepCount, hd1]
  have hdeg2 : computeInDeg (validateDeps ts) t2.taskId = 0 := by
    rw [computeInDeg_eq (validateDeps ts) hndv h2v,
      if_neg (by rw [hs2]; decide)]
    simp [regDepCount, hd2]
  have hf1 : (computeInDeg (validateDeps ts) t1.taskId == 0 &&
      !(t1.status == TaskStatus.skipped)) = true := by
    rw [hdeg1, hs1]
    rfl
  have hf2 : (computeInDeg (validateDeps ts) t2.taskId == 0 &&
      !(t2.status == TaskStatus.skipped)) = true := by
    rw [hdeg2, hs2]
    rfl
  have hmem1 : t1.taskId ∈ seedPre (validateDeps ts) := by
    unfold seedPre
    exact List.mem_map.mpr ⟨t1, List.mem_filter.mpr ⟨h1v, hf1⟩, rfl⟩
  have hmem2 : t2.taskId ∈ seedPre (validateDeps ts) := by
    unfold seedPre
    exact List.mem_map.mpr ⟨t2, List.mem_filter.mpr ⟨h2v, hf2⟩, rfl⟩
  have hndS : (seedPre (validateDeps ts)).Nodup :=
    List.Nodup.sublist (List.Sublist.map _ (List.filter_sublist _)) hndv
  have hc1 : (seedPre (validateDeps ts)).count t1.taskId ≤ 1 :=
    List.nodup_iff_count_le_one.mp hndS _
  have hc2 : (seedPre (validateDeps ts)).count t2.taskId ≤ 1 :=
    List.nodup_iff_count_le_one.mp hndS _
  have hpairQ : List.Sublist [t1.taskId, t2.taskId]
      (sortDesc (validateDeps ts) (seedPre (validateDeps ts))) := by
    rcases hprio with hstrict | ⟨heq, hsub⟩
    · have hq1 : t1.taskId ∈ sortDesc (validateDeps ts) (seedPre (validateDeps ts)) :=
        (mem_sortDesc _ _ _).mpr hmem1
      have hq2 : t2.taskId ∈ sortDesc (validateDeps ts) (seedPre (validateDeps ts)) :=
        (mem_sortDesc _ _ _).mpr hmem2
      rcases mem_mem_sublist_or hne _ hq1 hq2 with h | h
      · exact h
      · exfalso
        have hpw := pairwise_sortDesc (validateDeps ts) (seedPre (validateDeps ts))
        have hrel := pairwise_of_pair_sublist hpw h
        unfold prioGE at hrel
        rw [hp1, hp2] at hrel
        omega
    · have hsub1 : List.Sublist [t1, t2] (validateDeps ts) := by
        have hmap := List.Sublist.map (validateTask (taskIds ts)) hsub
        simp only [List.map_cons, List.map_nil] at hmap
        rw [vt1, vt2] at hmap
        exact hmap
      have hfil := List.Sublist.filter
        (fun t => computeInDeg (validateDeps ts) t.taskId == 0 &&
          !(t.status == TaskStatus.skipped)) hsub1
      rw [List.filter_cons, if_pos hf1, List.filter_cons, if_pos hf2,
        List.filter_nil] at hfil
      have hpairS : List.Sublist [t1.taskId, t2.taskId] (seedPre (validateDeps ts)) := by
        unfold seedPre
        exact List.Sublist.map (fun t : TaskInfo => t.taskId) hfil
      exact sortDesc_stable _ _ _ hge _ hpairS
  rw [hord]
  unfold kahnResult kahnLoop
  rw [seedQueue_eq]
  refine kahnC6 (validateDeps ts) t1.taskId t2.taskId hne hr1 hr2 hge hnodep
    _ _ _ _ _ (le_refl _) ?_
  exact Or.inl ⟨hpairQ, by simp, by simp,
    by rw [count_sortDesc]; exact hc1, by rw [count_sortDesc]; exact hc2⟩

/-- The C6 witness registry: a low-priority task registered before a
high-priority one, both with no dependencies. -/
def tsC6 : List TaskInfo :=
  [{ taskId := "low", priority := .low }, { taskId := "high", priority := .high }]

/-- The high-priority task of the C6 witness. -/
def taskHigh : TaskInfo := { taskId := "high", priority := .high }

/-- The low-priority task of the C6 witness. -/
def taskLow : TaskInfo := { taskId := "low", priority := .low }

/-- Witness for C6 at a concrete two-task registry: the high-priority
task, though registered second, precedes the low-priority one. -/
theorem c6_witness :
    (taskIds tsC6).Nodup ∧ (resolve_order tsC6).2 = Except.ok ["high", "low"] ∧
    List.Sublist [taskHigh.taskId, taskLow.taskId] ["high", "low"] :=
  ⟨by decide, rfl,
    c6_priority_order tsC6 taskHigh taskLow ["high", "low"] (by decide) (by decide)
      (by decide) rfl rfl rfl rfl (by decide) (Or.inl (by decide)) rfl⟩

end AutoCoder
